import Mathlib

/-!
Verification development for the bubbletea-menubar library
(package menubar, single source file).

The Go source is shallowly embedded below.  Go strings are modelled as
lists of unicode characters; the byte-index loops of the source only
ever slice at rune boundaries, so character positions are a faithful
model of the byte positions the source uses.  Go panics (out-of-range
slice indexing) are modelled by Option-valued functions returning none.
Go int fields that can legitimately hold -1 (Selection, OpenSubMenu)
are modelled as Int.

The style engine (lipgloss) is an external collaborator.  It is
modelled by a small numeric capability: a style is summarized by the
frame sizes and rendered line heights the menu code queries, and the
cell-width measurement of a styled string is modelled by a printable
rune width function (ANSI sequences count zero, double-width code
points count two), mirroring the measurement the library relies on.
-/

/-- Modelled from the spec: the external style-engine measurement of one
code point. Control characters measure zero columns, double-width
(East-Asian wide) code points measure two, all others one.  Only the
fixed-width/double-width distinction is in scope per the spec. -/
def charWidth (c : Char) : Nat :=
  if c.toNat < 0x20 ∨ c.toNat = 0x7f then 0
  else if (0x1100 ≤ c.toNat ∧ c.toNat ≤ 0x115F)
       ∨ (0x2E80 ≤ c.toNat ∧ c.toNat ≤ 0x9FFF)
       ∨ (0xAC00 ≤ c.toNat ∧ c.toNat ≤ 0xD7A3)
       ∨ (0xF900 ≤ c.toNat ∧ c.toNat ≤ 0xFAFF)
       ∨ (0xFF00 ≤ c.toNat ∧ c.toNat ≤ 0xFF60) then 2
  else 1

/-- Terminator of an ANSI escape sequence (a letter in the byte ranges
0x40-0x5a or 0x61-0x7a), as recognised by the width measurement. -/
def isAnsiTerm (c : Char) : Bool :=
  (0x40 ≤ c.toNat ∧ c.toNat ≤ 0x5a) ∨ (0x61 ≤ c.toNat ∧ c.toNat ≤ 0x7a)

/-- Modelled from the spec: printable cell width of a character run,
threading the in-escape-sequence state.  Characters between an ESC
marker and its terminator contribute no width. -/
def prwAux : List Char → Bool → Nat
  | [], _ => 0
  | c :: rest, inAnsi =>
    if c = '\x1b' then prwAux rest true
    else if inAnsi then
      (if isAnsiTerm c then prwAux rest false else prwAux rest true)
    else charWidth c + prwAux rest false

/-- State (inside an escape sequence or not) left after scanning a run. -/
def ansiStateAfter : List Char → Bool → Bool
  | [], st => st
  | c :: rest, inAnsi =>
    if c = '\x1b' then ansiStateAfter rest true
    else if inAnsi then
      (if isAnsiTerm c then ansiStateAfter rest false else ansiStateAfter rest true)
    else ansiStateAfter rest false

/-- Visible cell width of a character run (the model of lipgloss.Width
on a single line). -/
def visW (s : List Char) : Nat := prwAux s false

/-- Visible cell width of a Lean string. -/
def strW (s : String) : Nat := visW s.data

/-- One menu item, mirroring struct MenuItem: Label, Hotkey, Shortcut,
Action (an opaque command token; presence mirrors a non-nil func),
SubMenu, IsSeparator, Disabled. -/
inductive MenuItem where
  | mk (label : String) (hotkey : String) (shortcut : String)
       (action : Option Nat) (subMenu : List MenuItem)
       (isSeparator : Bool) (disabled : Bool) : MenuItem

def MenuItem.label : MenuItem → String | .mk l _ _ _ _ _ _ => l
def MenuItem.hotkey : MenuItem → String | .mk _ h _ _ _ _ _ => h
def MenuItem.shortcut : MenuItem → String | .mk _ _ s _ _ _ _ => s
def MenuItem.action : MenuItem → Option Nat | .mk _ _ _ a _ _ _ => a
def MenuItem.subMenu : MenuItem → List MenuItem | .mk _ _ _ _ s _ _ => s
def MenuItem.isSeparator : MenuItem → Bool | .mk _ _ _ _ _ s _ => s
def MenuItem.disabled : MenuItem → Bool | .mk _ _ _ _ _ _ d => d

/-- Mirrors func Separator(): a MenuItem with only IsSeparator set. -/
def SeparatorItem : MenuItem := .mk "" "" "" none [] true false

/-- Style configuration, summarized by the numeric measurements the menu
code queries from the style engine: horizontal frame sizes of the item
styles, frame size of the dropdown container, and rendered heights of a
bar line, a dropdown item line, a separator line and the dropdown top
border. -/
structure StylesCfg where
  itemHFrame : Nat
  selItemHFrame : Nat
  ddItemHFrame : Nat
  ddFrameW : Nat
  ddFrameH : Nat
  barH : Nat
  topBorderH : Nat
  ddItemH : Nat
  sepH : Nat
deriving DecidableEq, Repr

/-- The measurements of DefaultStyles(): items have Padding(0,1) (frame
2), the dropdown has a normal border (frame 2 by 2), single-row bar and
item lines. -/
def defaultStyles : StylesCfg :=
  { itemHFrame := 2, selItemHFrame := 2, ddItemHFrame := 2
    ddFrameW := 2, ddFrameH := 2, barH := 1, topBorderH := 1
    ddItemH := 1, sepH := 1 }

/-- One level of menu state, mirroring struct Model: Items, Active,
Selection, OpenSubMenu (-1 when none), SubMenuState (the recursive
optionally-owned child), isDropdown, Styles. -/
inductive Model where
  | mk (items : List MenuItem) (active : Bool) (selection : Int)
       (openSubMenu : Int) (subMenuState : Option Model)
       (isDropdown : Bool) (styles : StylesCfg) : Model

def Model.items : Model → List MenuItem | .mk i _ _ _ _ _ _ => i
def Model.active : Model → Bool | .mk _ a _ _ _ _ _ => a
def Model.selection : Model → Int | .mk _ _ s _ _ _ _ => s
def Model.openSubMenu : Model → Int | .mk _ _ _ o _ _ _ => o
def Model.subMenuState : Model → Option Model | .mk _ _ _ _ s _ _ => s
def Model.isDropdown : Model → Bool | .mk _ _ _ _ _ d _ => d
def Model.styles : Model → StylesCfg | .mk _ _ _ _ _ _ st => st

/-- Mirrors func New(items): OpenSubMenu -1, Selection 0, Active true,
default styles, not a dropdown, no child. -/
def NewModel (items : List MenuItem) : Model :=
  .mk items true 0 (-1) none false defaultStyles

/-- Go slice indexing items[i] with an int index: none models the
out-of-range panic. -/
def getI (items : List MenuItem) (i : Int) : Option MenuItem :=
  if i < 0 then none else items.get? i.toNat

/-- Mirrors the increment-with-wraparound step: sel++; if sel >= len
then sel = 0. -/
def wrapInc (s : Int) (n : Nat) : Int := if s + 1 ≥ (n : Int) then 0 else s + 1

/-- Mirrors the decrement-with-wraparound step: sel--; if sel < 0 then
sel = len-1. -/
def wrapDec (s : Int) (n : Nat) : Int := if s - 1 < 0 then (n : Int) - 1 else s - 1

/-- The forward skip loop over separator/disabled items, with the
start-index guard: while items[sel] is separator or disabled, advance
with wraparound, stopping if the walk returns to start.  The fuel
argument bounds iterations (the Go loop runs at most length steps
before the guard fires); none models the indexing panic. -/
def skipFwd (items : List MenuItem) (start : Int) : Nat → Int → Option Int
  | 0, sel =>
    match getI items sel with
    | none => none
    | some it => if it.isSeparator || it.disabled then none else some sel
  | f + 1, sel =>
    match getI items sel with
    | none => none
    | some it =>
      if it.isSeparator || it.disabled then
        let sel2 := wrapInc sel items.length
        if sel2 = start then some sel2 else skipFwd items start f sel2
      else some sel

/-- The backward skip loop, symmetric to skipFwd. -/
def skipBwd (items : List MenuItem) (start : Int) : Nat → Int → Option Int
  | 0, sel =>
    match getI items sel with
    | none => none
    | some it => if it.isSeparator || it.disabled then none else some sel
  | f + 1, sel =>
    match getI items sel with
    | none => none
    | some it =>
      if it.isSeparator || it.disabled then
        let sel2 := wrapDec sel items.length
        if sel2 = start then some sel2 else skipBwd items start f sel2
      else some sel

/-- The move-next operation (right on the bar / down in a dropdown):
advance selection with wraparound, then skip separator/disabled items
forward with the start guard. -/
def moveNext (items : List MenuItem) (sel : Int) : Option Int :=
  let s1 := wrapInc sel items.length
  skipFwd items s1 items.length s1

/-- The move-previous operation (left on the bar / up in a dropdown). -/
def movePrev (items : List MenuItem) (sel : Int) : Option Int :=
  let s1 := wrapDec sel items.length
  skipBwd items s1 items.length s1

def Model.withSelection : Model → Int → Model
  | .mk items act _ osm sub dd st, s => .mk items act s osm sub dd st

def Model.withActive : Model → Bool → Model
  | .mk items _ sel osm sub dd st, a => .mk items a sel osm sub dd st

/-- Sets OpenSubMenu and installs a child model. -/
def Model.withOpenChild : Model → Int → Model → Model
  | .mk items act sel _ _ dd st, o, c => .mk items act sel o (some c) dd st

/-- Sets OpenSubMenu to -1 and drops the child. -/
def Model.clearChild : Model → Model
  | .mk items act sel _ _ dd st => .mk items act sel (-1) none dd st

/-- The outside-click collapse: Active false, OpenSubMenu -1, child
dropped. -/
def Model.deactivateAll : Model → Model
  | .mk items _ sel _ _ dd st => .mk items false sel (-1) none dd st

/-- The child model built by openCurrentSelection: New(item.SubMenu)
with isDropdown set and the parent's style configuration copied. -/
def dropChild (st : StylesCfg) (items : List MenuItem) : Model :=
  .mk items true 0 (-1) none true st

/-- Mirrors openCurrentSelection: if the selected item has a submenu,
record OpenSubMenu and install a fresh dropdown child; otherwise leave
the model unchanged.  Indexing the selection may panic (none). -/
def openCurrentSelection (m : Model) : Option Model :=
  match getI m.items m.selection with
  | none => none
  | some it =>
    if it.subMenu.length > 0 then
      some (m.withOpenChild m.selection (dropChild m.styles it.subMenu))
    else some m

/-- Case-insensitive string comparison modelling strings.EqualFold
(simple per-character folding). -/
def eqFold (a b : String) : Bool := a.data.map Char.toLower == b.data.map Char.toLower

/-- Predicate of the first (exact, case-sensitive) hotkey scan:
non-separator, non-disabled, non-empty hotkey equal to the key. -/
def hotkeyPred1 (key : String) (it : MenuItem) : Bool :=
  !it.isSeparator && !it.disabled && it.hotkey != "" && key == it.hotkey

/-- Predicate of the second (case-insensitive) hotkey scan. -/
def hotkeyPred2 (key : String) (it : MenuItem) : Bool :=
  !it.isSeparator && !it.disabled && it.hotkey != "" && eqFold key it.hotkey

/-- The scanning loop shared by both hotkey passes: index of the first
item satisfying the predicate, mirroring the Go range loop. -/
def hotScan (p : MenuItem → Bool) : List MenuItem → Nat → Option Nat
  | [], _ => none
  | it :: rest, i => if p it then some i else hotScan p rest (i + 1)

/-- First pass of the hotkey scan: index of the first exact match. -/
def hotkeyScan1 (items : List MenuItem) (key : String) : Option Nat :=
  hotScan (hotkeyPred1 key) items 0

/-- Second pass: index of the first case-insensitive match. -/
def hotkeyScan2 (items : List MenuItem) (key : String) : Option Nat :=
  hotScan (hotkeyPred2 key) items 0

/-- The body executed on a hotkey match at index i: select it, then
open its submenu, or emit its action, or do nothing more. -/
def applyHot (m : Model) (i : Nat) : Option (Model × Option Nat) :=
  match m.items.get? i with
  | none => none
  | some it =>
    let m1 := m.withSelection (i : Int)
    if it.subMenu.length > 0 then
      match openCurrentSelection m1 with
      | none => none
      | some m2 => some (m2, none)
    else
      match it.action with
      | some a => some (m1, some a)
      | none => some (m1, none)

/-- The directional/enter/esc key switch of Update, reached when no
hotkey matched and no submenu is open. -/
def keySwitch (m : Model) (key : String) : Option (Model × Option Nat) :=
  if key = "left" then
    if m.isDropdown then some (m.withActive false, none)
    else
      match movePrev m.items m.selection with
      | none => none
      | some s => some (m.withSelection s, none)
  else if key = "right" then
    if m.isDropdown then
      match getI m.items m.selection with
      | none => none
      | some it =>
        if it.subMenu.length > 0 then
          match openCurrentSelection m with
          | none => none
          | some m2 => some (m2, none)
        else some (m, none)
    else
      match moveNext m.items m.selection with
      | none => none
      | some s => some (m.withSelection s, none)
  else if key = "up" then
    if m.isDropdown then
      match movePrev m.items m.selection with
      | none => none
      | some s => some (m.withSelection s, none)
    else some (m, none)
  else if key = "down" then
    if m.isDropdown then
      match moveNext m.items m.selection with
      | none => none
      | some s => some (m.withSelection s, none)
    else if m.items.length > 0 then
      match openCurrentSelection m with
      | none => none
      | some m2 => some (m2, none)
    else some (m, none)
  else if key = "enter" then
    if m.items.length > 0 then
      match getI m.items m.selection with
      | none => none
      | some it =>
        if it.disabled then some (m, none)
        else if it.subMenu.length > 0 then
          match openCurrentSelection m with
          | none => none
          | some m2 => some (m2, none)
        else
          match it.action with
          | some a => some (m, some a)
          | none => some (m, none)
    else some (m, none)
  else if key = "esc" then
    if m.isDropdown then some (m.withActive false, none)
    else some (m.clearChild, none)
  else some (m, none)

/-- Keyboard handling when no submenu is open: the two hotkey scans,
then the key switch. -/
def keyNoChild (m : Model) (key : String) : Option (Model × Option Nat) :=
  match hotkeyScan1 m.items key with
  | some i => applyHot m i
  | none =>
    match hotkeyScan2 m.items key with
    | some i => applyHot m i
    | none => keySwitch m key

/-- Mirrors hasOpenSubmenu. -/
def Model.hasOpenSub (m : Model) : Bool :=
  decide (m.openSubMenu ≠ -1) && m.subMenuState.isSome

/-- Mirrors wantsToHandleRight: recurse down the open chain; at the
end, true when the current selection has a submenu (indexing may
panic). -/
def wantsToHandleRight : Model → Option Bool
  | .mk items _ sel osm (some sub) _ _ =>
    if osm ≠ -1 then wantsToHandleRight sub
    else if items.length > 0 then
      match getI items sel with
      | none => none
      | some it => some (decide (it.subMenu.length > 0))
    else some false
  | .mk items _ sel _ none _ _ =>
    if items.length > 0 then
      match getI items sel with
      | none => none
      | some it => some (decide (it.subMenu.length > 0))
    else some false

/-- Mouse event kinds distinguished by the source (press and wheel
events fall through both type tests, behaving like the press case). -/
inductive MouseKind where
  | press | release | motion
deriving DecidableEq, Repr

/-- A pointer event: absolute column, row and kind. -/
structure Mouse where
  x : Int
  y : Int
  kind : MouseKind
deriving DecidableEq, Repr

/-- An input message: a key press (normalized key string) or a pointer
event. -/
inductive Msg where
  | key (s : String) : Msg
  | mouse (mm : Mouse) : Msg

/-- Mirrors measureItem for item it at index i: separators render as a
styled vertical bar; otherwise the label rendered through Item or, when
active and selected, SelectedItem.  Rendered width is the visible label
width plus the style's horizontal frame. -/
def measureItemAt (m : Model) (i : Nat) (it : MenuItem) : Nat :=
  if it.isSeparator then strW "|" + m.styles.itemHFrame
  else
    strW it.label +
      (if m.active ∧ (i : Int) = m.selection then m.styles.selItemHFrame
       else m.styles.itemHFrame)

/-- The measurement loop shared by getDropdownDimensions and
renderSingleDropdown: running maximum label width, maximum shortcut
width, and whether any item has a submenu. -/
def dimsScan (items : List MenuItem) : Nat × Nat × Bool :=
  items.foldl
    (fun acc it =>
      let a1 := if strW it.label > acc.1 then strW it.label else acc.1
      let a2 := if strW it.shortcut > acc.2.1 then strW it.shortcut else acc.2.1
      let a3 := acc.2.2 || decide (it.subMenu.length > 0)
      (a1, a2, a3))
    (0, 0, false)

/-- Mirrors getDropdownDimensions: inner width is max label width + 2
gap + right column width (bumped to 2 when some item has a submenu and
the maximum shortcut width is below 2), wrapped in the item style's and
the dropdown frame's horizontal overhead; height is the item count plus
the dropdown frame's vertical overhead. -/
def getDropdownDimensions (m : Model) : Nat × Nat :=
  let t := dimsScan m.items
  let maxRight := if t.2.2 ∧ t.2.1 < 2 then 2 else t.2.1
  (t.1 + 2 + maxRight + m.styles.ddItemHFrame + m.styles.ddFrameW,
   m.items.length + m.styles.ddFrameH)

/-- Cumulative widths of the first k bar items (the subX loop of
checkMouse); none models the panic when k exceeds the item count. -/
def sumMeasure (m : Model) (k : Int) : Option Nat :=
  if k ≤ 0 then some 0
  else if k.toNat ≤ m.items.length then
    some (((m.items.take k.toNat).enum.map (fun p => measureItemAt m p.1 p.2)).sum)
  else none

/-- Rendered height of one dropdown row: separator rows through the
Separator style, other rows through DropdownItem. -/
def rowH (st : StylesCfg) (it : MenuItem) : Nat :=
  if it.isSeparator then st.sepH else st.ddItemH

/-- Cumulative heights of the first k dropdown rows (the yOffset loop
of checkMouse); none models the panic when k exceeds the item count. -/
def sumHeights (m : Model) (k : Int) : Option Nat :=
  if k ≤ 0 then some 0
  else if k.toNat ≤ m.items.length then
    some (((m.items.take k.toNat).map (rowH m.styles)).sum)
  else none

/-- The row-finding loop of the dropdown hit test: walk items
accumulating row heights until one covers localY. -/
def findRowAux (st : StylesCfg) (localY : Int) : List (Nat × MenuItem) → Int → Option Nat
  | [], _ => none
  | (i, it) :: rest, curY =>
    let h := (rowH st it : Int)
    if curY ≤ localY ∧ localY < curY + h then some i
    else findRowAux st localY rest (curY + h)

def findRow (st : StylesCfg) (items : List MenuItem) (localY : Int) : Option Nat :=
  findRowAux st localY items.enum 0

/-- The column-finding loop of the bar hit test: walk items
accumulating measured widths until one covers x. -/
def findColAux (m : Model) (x : Int) : List (Nat × MenuItem) → Int → Option Nat
  | [], _ => none
  | (i, it) :: rest, curX =>
    let w := (measureItemAt m i it : Int)
    if curX ≤ x ∧ x < curX + w then some i
    else findColAux m x rest (curX + w)

def findCol (m : Model) (baseX x : Int) : Option Nat :=
  findColAux m x m.items.enum baseX

/-- Step 2 of checkMouse: hit-testing this node's own dropdown or bar
geometry.  Returns the updated model, whether the event was handled,
and an emitted command. -/
def checkSelf (m : Model) (msg : Mouse) (baseX baseY : Int) :
    Option (Model × Bool × Option Nat) :=
  if m.isDropdown then
    let wh := getDropdownDimensions m
    if baseX ≤ msg.x ∧ msg.x < baseX + (wh.1 : Int) ∧
       baseY ≤ msg.y ∧ msg.y < baseY + (wh.2 : Int) then
      let localY := msg.y - baseY - (m.styles.topBorderH : Int)
      match findRow m.styles m.items localY with
      | none => some (m, true, none)
      | some i =>
        match m.items.get? i with
        | none => none
        | some it =>
          if it.isSeparator || it.disabled then some (m, true, none)
          else
            let m1 := m.withSelection (i : Int)
            if msg.kind = .release then
              if it.subMenu.length > 0 then
                match openCurrentSelection m1 with
                | none => none
                | some m2 => some (m2, true, none)
              else
                match it.action with
                | some a => some (m1, true, some a)
                | none => some (m1, true, none)
            else if msg.kind = .motion then
              if m1.openSubMenu ≠ -1 ∧ m1.openSubMenu ≠ (i : Int) then
                some (m1.clearChild, true, none)
              else some (m1, true, none)
            else some (m1, true, none)
    else some (m, false, none)
  else
    if baseY ≤ msg.y ∧ msg.y < baseY + (m.styles.barH : Int) then
      match findCol m baseX msg.x with
      | none => some (m, true, none)
      | some i =>
        match m.items.get? i with
        | none => none
        | some it =>
          let m1 := m.withSelection (i : Int)
          if msg.kind = .release then
            let m2 := if m1.active = false then m1.withActive true else m1
            if it.subMenu.length > 0 then
              if m2.openSubMenu = (i : Int) then some (m2.clearChild, true, none)
              else
                match openCurrentSelection m2 with
                | none => none
                | some m3 => some (m3, true, none)
            else
              match it.action with
              | some a => some (m2, true, some a)
              | none => some (m2, true, none)
          else if msg.kind = .motion then
            if m1.active ∧ m1.openSubMenu ≠ -1 ∧ m1.openSubMenu ≠ (i : Int) then
              match openCurrentSelection m1 with
              | none => none
              | some m2 => some (m2, true, none)
            else some (m1, true, none)
          else some (m1, true, none)
    else some (m, false, none)

/-- Mirrors checkMouse: hit-test the open child first (it renders on
top), at the offsets computed from the parent's geometry; if the child
does not claim the event, hit-test this node's own geometry. -/
def checkMouse : Model → Mouse → Int → Int → Option (Model × Bool × Option Nat)
  | .mk items act sel osm (some sub) dd st, msg, baseX, baseY =>
    let m := Model.mk items act sel osm (some sub) dd st
    if osm ≠ -1 then
      let subXY : Option (Int × Int) :=
        if dd then
          match sumHeights m osm with
          | none => none
          | some hsum =>
            some (baseX + ((getDropdownDimensions m).1 : Int),
                  baseY + (st.topBorderH : Int) + (hsum : Int))
        else
          match sumMeasure m osm with
          | none => none
          | some wsum => some (baseX + (wsum : Int), baseY + (st.barH : Int))
      match subXY with
      | none => none
      | some (subX, subY) =>
        match checkMouse sub msg subX subY with
        | none => none
        | some (sub2, handled, cmd) =>
          let m1 := Model.mk items act sel osm (some sub2) dd st
          if handled then some (m1, true, cmd)
          else checkSelf m1 msg baseX baseY
    else checkSelf m msg baseX baseY
  | m@(.mk _ _ _ _ none _ _), msg, baseX, baseY => checkSelf m msg baseX baseY

/-- Mirrors handleMouse: run the hit test from the root; an unhandled
release is a click outside, deactivating the bar and discarding the
child chain. -/
def handleMouse (m : Model) (mm : Mouse) : Option (Model × Option Nat) :=
  match checkMouse m mm 0 0 with
  | none => none
  | some (m1, handled, cmd) =>
    if handled = false ∧ mm.kind = .release then some (m1.deactivateAll, cmd)
    else some (m1, cmd)

/-- Mirrors Update: pointer events are always evaluated; keyboard input
is ignored when inactive; with an open child, the bar intercepts
left/right when the chain does not want them and otherwise delegates;
without an open child, hotkeys then the key switch. -/
def update : Model → Msg → Option (Model × Option Nat)
  | .mk items act sel osm (some sub) dd st, msg =>
    let m := Model.mk items act sel osm (some sub) dd st
    match msg with
    | .mouse mm => handleMouse m mm
    | .key key =>
      if act = false then some (m, none)
      else if osm = -1 then keyNoChild m key
      else
        let deleg : Option (Model × Option Nat) :=
          match update sub msg with
          | none => none
          | some (sub2, cmd) =>
            let m1 := Model.mk items act sel osm (some sub2) dd st
            if sub2.active = false then some (m1.clearChild, cmd)
            else some (m1, cmd)
        if dd = false ∧ key = "left" then
          if sub.hasOpenSub = false then
            match movePrev items sel with
            | none => none
            | some s =>
              match openCurrentSelection (Model.mk items act s osm (some sub) dd st) with
              | none => none
              | some m2 => some (m2, none)
          else deleg
        else if dd = false ∧ key = "right" then
          match wantsToHandleRight sub with
          | none => none
          | some w =>
            if w = false then
              match moveNext items sel with
              | none => none
              | some s =>
                match openCurrentSelection (Model.mk items act s osm (some sub) dd st) with
                | none => none
                | some m2 => some (m2, none)
            else deleg
        else deleg
  | m@(.mk _ _ _ _ none _ _), msg =>
    match msg with
    | .mouse mm => handleMouse m mm
    | .key key =>
      if m.active = false then some (m, none)
      else keyNoChild m key

/-- The scanning loop of splitWithANSI: position i walks the rune
starts; stop at a boundary of exactly the target width, or back off to
the previous boundary when the width jumps past the target.  The gas
argument counts the remaining loop iterations (one per rune);
exhausting it is the post-loop fallback, which returns the whole string
in both of its arms. -/
def splitGo (s : List Char) (w : Nat) : Nat → Nat → Nat → List Char × List Char
  | 0, _, _ => (s, [])
  | gas + 1, i, prevI =>
    let vw := visW (s.take i)
    if vw = w then (s.take i, s.drop i)
    else if vw > w then (s.take prevI, s.drop prevI)
    else splitGo s w gas (i + 1) i

/-- Mirrors splitWithANSI: split a styled run at a target visible cell
width. -/
def splitWithANSI (s : List Char) (w : Nat) : List Char × List Char :=
  splitGo s w s.length 0 0

/-- Parser for the parameter part of the style control sequence pattern
(digits and semicolons, terminated by the letter m): returns the
consumed characters including the final m, and the remainder. -/
def ansiParams : List Char → Option (List Char × List Char)
  | [] => none
  | c :: rest =>
    if c.isDigit || c = ';' then
      match ansiParams rest with
      | some (body, rem) => some (c :: body, rem)
      | none => none
    else if c = 'm' then some (['m'], rest)
    else none

/-- The scan of ansiRegex.FindAllString: every non-overlapping match of
ESC [ params m, left to right.  Fuel is the string length (each step
consumes at least one character). -/
def findAnsiF : Nat → List Char → List (List Char)
  | 0, _ => []
  | _, [] => []
  | fuel + 1, c :: rest =>
    if c = '\x1b' then
      match rest with
      | '[' :: rest2 =>
        match ansiParams rest2 with
        | some (body, rem) => ('\x1b' :: '[' :: body) :: findAnsiF fuel rem
        | none => findAnsiF fuel rest
      | _ => findAnsiF fuel rest
    else findAnsiF fuel rest

/-- All style control sequences occurring in a run, in order. -/
def findAnsi (s : List Char) : List (List Char) := findAnsiF s.length s

/-- The per-row body of Overlay: pad a narrow background row, or splice
the foreground into it at column x, re-emitting the style codes active
in the background before the surviving suffix. -/
def overlayRow (bgLine fgLine : List Char) (x : Nat) : List Char :=
  let bgW := visW bgLine
  if bgW < x then bgLine ++ List.replicate (x - bgW) ' ' ++ fgLine
  else
    let pre := (splitWithANSI bgLine x).1
    let fgW := visW fgLine
    let suffixStart := x + fgW
    let ps := splitWithANSI bgLine suffixStart
    let ansiCodes := (findAnsi ps.1).flatten
    let sfx := ansiCodes ++ ps.2
    let preW := visW pre
    let pad := if preW < x then List.replicate (x - preW) ' ' else []
    pre ++ pad ++ fgLine ++ sfx

/-- Mirrors Overlay on rows of characters: each foreground row is
composited onto the background row y + i, rows past the end of the
background are appended with x blank columns in front. -/
def overlayLines (bg fg : List (List Char)) (x y : Nat) : List (List Char) :=
  fg.enum.foldl
    (fun bgLines p =>
      let row := y + p.1
      if h : row < bgLines.length then
        bgLines.set row (overlayRow (bgLines.get ⟨row, h⟩) p.2 x)
      else bgLines ++ [List.replicate x ' ' ++ p.2])
    bg

/-- Mirrors Overlay on whole strings (split and rejoined on line
breaks). -/
def OverlayStr (bg fg : String) (x y : Nat) : String :=
  String.intercalate "\n"
    ((overlayLines ((bg.splitOn "\n").map String.data)
        ((fg.splitOn "\n").map String.data) x y).map String.mk)

/-- Selectability of the entry at an int index: in range and neither a
separator nor disabled. -/
def selOK (items : List MenuItem) (i : Int) : Bool :=
  match getI items i with
  | some it => !it.isSeparator && !it.disabled
  | none => false

/-- Repeated application of the move-next operation, propagating a
panic. -/
def moveNextIter (items : List MenuItem) : Nat → Int → Option Int
  | 0, s => some s
  | k + 1, s =>
    match moveNext items s with
    | none => none
    | some t => moveNextIter items k t

/-- The linked-child invariant, recursively down the open chain: the
child reference is present exactly when OpenSubMenu is set. -/
def linkedOK : Model → Bool
  | .mk _ _ _ osm none _ _ => osm == -1
  | .mk _ _ _ osm (some sub) _ _ => (osm != -1) && linkedOK sub

/-- Maximum visible label width over a list of items. -/
def maxLabelW (items : List MenuItem) : Nat :=
  items.foldr (fun it a => max (strW it.label) a) 0

/-- Maximum visible shortcut width over a list of items. -/
def maxShortW (items : List MenuItem) : Nat :=
  items.foldr (fun it a => max (strW it.shortcut) a) 0

/-- Whether any item carries a submenu. -/
def anySub (items : List MenuItem) : Bool :=
  items.any (fun it => decide (it.subMenu.length > 0))

/-- Whether no item carries a shortcut hint. -/
def noShortcuts (items : List MenuItem) : Bool :=
  items.all (fun it => it.shortcut == "")

/-- Modelled from the spec: the claimed dimension formula, whose right
column is the maximum shortcut width except that a submenu indicator
counts as width 2 when no entry has a shortcut but at least one entry
has a submenu. -/
def specDropdownDims (m : Model) : Nat × Nat :=
  let right := if noShortcuts m.items ∧ anySub m.items then 2 else maxShortW m.items
  (maxLabelW m.items + 2 + right + m.styles.ddItemHFrame + m.styles.ddFrameW,
   m.items.length + m.styles.ddFrameH)

/-- The dimension formula as the code computes it: the right column is
bumped to 2 whenever some entry has a submenu and the maximum shortcut
width is below 2 (even if shortcuts exist). -/
def amendedDropdownDims (m : Model) : Nat × Nat :=
  let right := if anySub m.items ∧ maxShortW m.items < 2 then 2 else maxShortW m.items
  (maxLabelW m.items + 2 + right + m.styles.ddItemHFrame + m.styles.ddFrameW,
   m.items.length + m.styles.ddFrameH)

/-- Index of the first non-separator, non-disabled entry (the
adjustment the spec claims for a fresh child's selection). -/
def firstSelectable (items : List MenuItem) : Nat :=
  items.findIdx (fun it => !it.isSeparator && !it.disabled)

/-- A plain selectable action-less item. -/
def plainItem (l : String) : MenuItem := .mk l "" "" none [] false false

/-- An item list whose first entry is a separator and whose second is
selectable. -/
def sepFirstItems : List MenuItem := [SeparatorItem, plainItem "A"]

/-- A bar whose single item owns the separator-first submenu. -/
def c2parent : Model :=
  NewModel [MenuItem.mk "File" "" "" none sepFirstItems false false]

/-- A bar with a disabled entry of hotkey x and an enabled entry of
hotkey X carrying action token 7. -/
def c5cexModel : Model :=
  NewModel [MenuItem.mk "A" "x" "" none [] false true,
            MenuItem.mk "B" "X" "" (some 7) [] false false]

/-- A bar with a disabled entry of hotkey z (action 3) and a hotkey-less
entry. -/
def c5wModel : Model :=
  NewModel [MenuItem.mk "A" "z" "" (some 3) [] false true, plainItem "B"]

/-- A dropdown whose first entry has a width-1 shortcut and whose second
entry has a submenu: the code bumps the right column to 2, the claimed
formula keeps it at 1. -/
def c9cexModel : Model :=
  NewModel [MenuItem.mk "A" "" "N" none [] false false,
            MenuItem.mk "B" "" "" none [plainItem "s"] false false]

/-- A one-item bar used to exercise an outside click. -/
def c7wModel : Model := NewModel [plainItem "File"]

/-- A bar whose single item has a submenu, for exercising the open
transition. -/
def c6wModel : Model := NewModel [MenuItem.mk "File" "" "" none [plainItem "A"] false false]

/-- The state reached from c6wModel by the open-menu key. -/
def c6wAfter : Model × Option Nat :=
  (update c6wModel (.key "down")).getD (c6wModel, none)

/-- The selectable indices of an item list, as a finite type. -/
abbrev SelIdx (items : List MenuItem) : Type :=
  {i : Fin items.length // selOK items ((i : Nat) : Int) = true}

/-- The restriction of moveNext to selectable indices, totalized by the
identity on the branches a selectable input never takes; used to
analyze the orbit of the move-next operation. -/
def stepSel (items : List MenuItem) (x : SelIdx items) : SelIdx items :=
  match moveNext items ((x.1 : Nat) : Int) with
  | some t =>
    if h : 0 ≤ t ∧ t < (items.length : Int) ∧ selOK items t = true then
      ⟨⟨t.toNat, by omega⟩, by
        simpa [Int.toNat_of_nonneg h.1] using h.2.2⟩
    else x
  | none => x

/-- A three-item bar whose last entry is a separator, used to exercise
the move-next cycle. -/
def c4wItems : List MenuItem := [plainItem "A", plainItem "B", SeparatorItem]

/-- A styled background row used to exercise the overlay splice: two
plain cells, a color control sequence, then two more cells. -/
def c8bg : List Char := ['a', 'b', '\x1b', '[', '3', '1', 'm', 'c', 'd']

/-- A two-cell foreground row. -/
def c8fg : List Char := ['Z', 'Z']

/-! Theorems. -/

/-- C1: on an active bar-level node with an empty entries sequence and
no open child, the left and right key events are not no-ops: the update
wraps the selection and then indexes the empty items slice in the skip
loop, an out-of-range access (modelled by none).  Up and down are
genuine no-ops.  This contradicts the claimed total-no-op policy. -/
theorem c1_empty_bar_left_right_panic :
    update (NewModel []) (.key "left") = none ∧
    update (NewModel []) (.key "right") = none ∧
    update (NewModel []) (.key "up") = some (NewModel [], none) ∧
    update (NewModel []) (.key "down") = some (NewModel [], none) :=
  ⟨rfl, rfl, rfl, rfl⟩

/-- C2 (amended): when the selected entry has a non-empty submenu, the
open-submenu operation installs exactly one fresh child that is a
dropdown, active, carries the parent's style configuration, has no open
child of its own, and whose selection is 0 unconditionally; the
parent's open-child index records the selection. -/
theorem c2_open_creates_dropdown_child (m : Model) (it : MenuItem)
    (hit : getI m.items m.selection = some it)
    (hsub : it.subMenu.length > 0) :
    openCurrentSelection m
      = some (m.withOpenChild m.selection (dropChild m.styles it.subMenu)) ∧
    (dropChild m.styles it.subMenu).isDropdown = true ∧
    (dropChild m.styles it.subMenu).active = true ∧
    (dropChild m.styles it.subMenu).styles = m.styles ∧
    (dropChild m.styles it.subMenu).selection = 0 ∧
    (dropChild m.styles it.subMenu).subMenuState = none ∧
    (m.withOpenChild m.selection (dropChild m.styles it.subMenu)).openSubMenu
      = m.selection ∧
    (m.withOpenChild m.selection (dropChild m.styles it.subMenu)).subMenuState
      = some (dropChild m.styles it.subMenu) := by
  refine ⟨?_, rfl, rfl, rfl, rfl, rfl, ?_, ?_⟩
  · unfold openCurrentSelection
    rw [hit]
    simp [hsub]
  · cases m; rfl
  · cases m; rfl

/-- C2 witness: opening the File menu of the concrete parent. -/
theorem c2_open_creates_dropdown_child_witness :
    openCurrentSelection c2parent
      = some (c2parent.withOpenChild c2parent.selection
          (dropChild c2parent.styles sepFirstItems)) :=
  (c2_open_creates_dropdown_child c2parent
    (MenuItem.mk "File" "" "" none sepFirstItems false false) rfl (by decide)).1

/-- C2 counterexample: the fresh child's selection is 0 even though the
submenu's first entry is a separator and its first selectable entry is
at index 1 — the claimed adjustment does not happen. -/
theorem c2_no_selection_adjustment :
    ((openCurrentSelection c2parent).bind Model.subMenuState)
      = some (dropChild defaultStyles sepFirstItems) ∧
    (dropChild defaultStyles sepFirstItems).selection = 0 ∧
    firstSelectable sepFirstItems = 1 ∧
    selOK sepFirstItems 0 = false ∧
    selOK sepFirstItems 1 = true :=
  ⟨rfl, rfl, by decide, by decide, by decide⟩

/-- The measurement loop of the dropdown geometry equals the maxima of
the label widths, the shortcut widths, and the any-submenu flag. -/
theorem dimsScan_eq (items : List MenuItem) :
    dimsScan items = (maxLabelW items, maxShortW items, anySub items) := by
  have H : ∀ (l : List MenuItem) (a1 a2 : Nat) (a3 : Bool),
      l.foldl
        (fun acc it =>
          let b1 := if strW it.label > acc.1 then strW it.label else acc.1
          let b2 := if strW it.shortcut > acc.2.1 then strW it.shortcut else acc.2.1
          let b3 := acc.2.2 || decide (it.subMenu.length > 0)
          (b1, b2, b3))
        (a1, a2, a3)
      = (max a1 (maxLabelW l), max a2 (maxShortW l), a3 || anySub l) := by
    intro l
    induction l with
    | nil =>
      intro a1 a2 a3
      simp [maxLabelW, maxShortW, anySub]
    | cons hd tl ih =>
      intro a1 a2 a3
      simp only [List.foldl_cons]
      rw [ih]
      refine Prod.ext ?_ (Prod.ext ?_ ?_)
      · simp only [maxLabelW, List.foldr_cons]
        split <;> omega
      · simp only [maxShortW, List.foldr_cons]
        split <;> omega
      · simp [anySub, List.any_cons, Bool.or_assoc]
  have h0 := H items 0 0 false
  simpa [dimsScan] using h0

/-- C9 (amended): the dropdown dimensions equal the spec formula with
the corrected side condition: the right column is the maximum shortcut
width, bumped to 2 whenever some entry has a submenu and that maximum
is below 2; the width adds the item style's and dropdown frame's
horizontal overhead and the height is the entry count plus the frame's
vertical overhead. -/
theorem c9_dimensions_formula (m : Model) :
    getDropdownDimensions m = amendedDropdownDims m := by
  unfold getDropdownDimensions amendedDropdownDims
  rw [dimsScan_eq]

/-- C9 counterexample: with a width-1 shortcut present and a submenu
present, the code bumps the right column to 2 while the claimed
formula (bump only when no entry has a shortcut) keeps it at 1. -/
theorem c9_formula_differs :
    getDropdownDimensions c9cexModel ≠ specDropdownDims c9cexModel := by
  decide

/-- The two halves produced by the width-aware split always concatenate
back to the input. -/
theorem splitGo_concat (s : List Char) (w : Nat) :
    ∀ gas i prevI, (splitGo s w gas i prevI).1 ++ (splitGo s w gas i prevI).2 = s := by
  intro gas
  induction gas with
  | zero => intro i prevI; simp [splitGo]
  | succ g ih =>
    intro i prevI
    simp only [splitGo]
    split
    · exact List.take_append_drop i s
    · split
      · exact List.take_append_drop prevI s
      · exact ih (i + 1) i

/-- The first half of the split stays within the target width as long
as the loop actually cut (a non-empty second half). -/
theorem splitGo_bound (s : List Char) (w : Nat) :
    ∀ gas i prevI, visW (s.take prevI) ≤ w →
      (splitGo s w gas i prevI).2 ≠ [] → visW (splitGo s w gas i prevI).1 ≤ w := by
  intro gas
  induction gas with
  | zero => intro i prevI _ h2; simp [splitGo] at h2
  | succ g ih =>
    intro i prevI hprev h2
    simp only [splitGo] at h2 ⊢
    by_cases he : visW (s.take i) = w
    · rw [if_pos he]
      simpa using he.le
    · rw [if_neg he] at h2 ⊢
      by_cases hg : visW (s.take i) > w
      · rw [if_pos hg]
        simpa using hprev
      · rw [if_neg hg] at h2 ⊢
        exact ih (i + 1) i (by omega) h2

/-- C10 (amended): the cell-width-aware split returns two halves whose
concatenation is exactly the input, and the first half's visible width
is at most the target whenever the second half is non-empty (when the
whole input is returned as the first half, a trailing wide code point
may push its width past the target). -/
theorem c10_split_sound (s : List Char) (w : Nat) :
    (splitWithANSI s w).1 ++ (splitWithANSI s w).2 = s ∧
    ((splitWithANSI s w).2 ≠ [] → visW (splitWithANSI s w).1 ≤ w) := by
  constructor
  · exact splitGo_concat s w s.length 0 0
  · intro h2
    exact splitGo_bound s w s.length 0 0 (by simp [visW, prwAux]) h2

/-- C10 witness: splitting a two-character run at width 1. -/
theorem c10_split_sound_witness :
    (splitWithANSI ['a', 'b'] 1).1 ++ (splitWithANSI ['a', 'b'] 1).2 = ['a', 'b'] ∧
    visW (splitWithANSI ['a', 'b'] 1).1 ≤ 1 :=
  ⟨(c10_split_sound ['a', 'b'] 1).1, (c10_split_sound ['a', 'b'] 1).2 (by decide)⟩

/-- C10 counterexample: splitting a single wide character at width 1
returns the whole string as the first half, whose visible width 2
exceeds the target — the claimed unconditional width bound fails. -/
theorem c10_wide_tail_exceeds :
    ¬ visW (splitWithANSI ['漢'] 1).1 ≤ 1 := by decide

/-- A scan returning an index found an element satisfying the predicate
at that index (offset by the running counter). -/
theorem hotScan_some (p : MenuItem → Bool) :
    ∀ (l : List MenuItem) (i j : Nat), hotScan p l i = some j →
      i ≤ j ∧ ∃ it, l.get? (j - i) = some it ∧ p it = true := by
  intro l
  induction l with
  | nil => intro i j h; simp [hotScan] at h
  | cons hd tl ih =>
    intro i j h
    simp only [hotScan] at h
    by_cases hp : p hd
    · rw [if_pos hp] at h
      cases h
      exact ⟨le_rfl, hd, by simp, hp⟩
    · rw [if_neg hp] at h
      obtain ⟨hij, it, hget, hpit⟩ := ih (i + 1) j h
      refine ⟨by omega, it, ?_, hpit⟩
      have : j - i = (j - (i + 1)) + 1 := by omega
      rw [this]
      simpa using hget

/-- A scan returns none exactly when no element satisfies the
predicate. -/
theorem hotScan_none (p : MenuItem → Bool) :
    ∀ (l : List MenuItem) (i : Nat), (∀ it ∈ l, p it = false) →
      hotScan p l i = none := by
  intro l
  induction l with
  | nil => intro i _; rfl
  | cons hd tl ih =>
    intro i hall
    simp only [hotScan]
    rw [if_neg (by simp [hall hd (by simp)])]
    exact ih (i + 1) (fun it hit => hall it (by simp [hit]))

/-- Case-insensitive comparison is reflexive. -/
theorem eqFold_refl (a : String) : eqFold a a = true := by
  simp [eqFold]

/-- C5 (amended): both hotkey scans skip separator and disabled entries
(a matched index always carries an enabled, non-separator entry whose
hotkey compares equal, exactly for the first pass and case-insensitively
for the second), and pressing the hotkey of a disabled entry leaves the
model unchanged and emits nothing, provided no other selectable entry's
hotkey matches the key case-insensitively and the key is not itself one
of the handled navigation keys. -/
theorem c5_hotkey_skips_disabled (m : Model) (key : String) :
    (∀ j, hotkeyScan1 m.items key = some j →
       ∃ it, m.items.get? j = some it ∧ it.isSeparator = false ∧
         it.disabled = false ∧ it.hotkey = key) ∧
    (∀ j, hotkeyScan2 m.items key = some j →
       ∃ it, m.items.get? j = some it ∧ it.isSeparator = false ∧
         it.disabled = false ∧ eqFold key it.hotkey = true) ∧
    (m.active = true → m.openSubMenu = -1 →
     (∃ it ∈ m.items, it.disabled = true ∧ it.hotkey = key) →
     (∀ it ∈ m.items, it.isSeparator = false → it.disabled = false →
        it.hotkey ≠ "" → eqFold key it.hotkey = false) →
     key ≠ "left" → key ≠ "right" → key ≠ "up" → key ≠ "down" →
     key ≠ "enter" → key ≠ "esc" →
     update m (.key key) = some (m, none)) := by
  refine ⟨?_, ?_, ?_⟩
  · intro j h
    obtain ⟨-, it, hget, hp⟩ := hotScan_some _ _ 0 j h
    simp only [Nat.sub_zero] at hget
    refine ⟨it, hget, ?_, ?_, ?_⟩ <;>
      simp only [hotkeyPred1, Bool.and_eq_true, Bool.not_eq_true',
        beq_iff_eq, bne_iff_ne] at hp
    · exact hp.1.1.1
    · exact hp.1.1.2
    · exact hp.2.symm
  · intro j h
    obtain ⟨-, it, hget, hp⟩ := hotScan_some _ _ 0 j h
    simp only [Nat.sub_zero] at hget
    refine ⟨it, hget, ?_, ?_, ?_⟩ <;>
      simp only [hotkeyPred2, Bool.and_eq_true, Bool.not_eq_true',
        bne_iff_ne] at hp
    · exact hp.1.1.1
    · exact hp.1.1.2
    · exact hp.2
  · intro hact hosm _ hnomatch h1 h2 h3 h4 h5 h6
    have hall2 : ∀ it ∈ m.items, hotkeyPred2 key it = false := by
      intro it hit
      simp only [hotkeyPred2]
      by_cases hs : it.isSeparator
      · simp [hs]
      · by_cases hd : it.disabled
        · simp [hs, hd]
        · by_cases hh : it.hotkey = ""
          · simp [hh]
          · simp [hs, hd, hh,
              hnomatch it hit (by simpa using hs) (by simpa using hd) hh]
    have hall1 : ∀ it ∈ m.items, hotkeyPred1 key it = false := by
      intro it hit
      have h2' := hall2 it hit
      simp only [hotkeyPred1]
      simp only [hotkeyPred2] at h2'
      by_cases hs : it.isSeparator
      · simp [hs]
      · by_cases hd : it.disabled
        · simp [hs, hd]
        · by_cases hh : it.hotkey = ""
          · simp [hh]
          · have hf : eqFold key it.hotkey = false := by
              simpa [hs, hd, hh] using h2'
            have : (key == it.hotkey) = false := by
              by_cases he : key = it.hotkey
              · subst he
                rw [eqFold_refl] at hf
                cases hf
              · simpa using he
            simp [this]
    have hscan1 : hotkeyScan1 m.items key = none := hotScan_none _ _ 0 hall1
    have hscan2 : hotkeyScan2 m.items key = none := hotScan_none _ _ 0 hall2
    have hkNC : keyNoChild m key = some (m, none) := by
      unfold keyNoChild
      rw [hscan1, hscan2]
      unfold keySwitch
      rw [if_neg h1, if_neg h2, if_neg h3, if_neg h4, if_neg h5, if_neg h6]
    cases m with
    | mk items act sel osm subOpt dd st =>
      simp only [Model.active] at hact
      simp only [Model.openSubMenu] at hosm
      subst hact hosm
      cases subOpt with
      | none => simpa [update, Model.active] using hkNC
      | some sub => simpa [update, Model.active] using hkNC

/-- C5 witness: pressing the hotkey of the sole (disabled) entry
carrying it. -/
theorem c5_hotkey_skips_disabled_witness :
    update c5wModel (.key "z") = some (c5wModel, none) :=
  (c5_hotkey_skips_disabled c5wModel "z").2.2 rfl rfl
    (by decide) (by decide) (by decide) (by decide) (by decide)
    (by decide) (by decide) (by decide)

/-- C5 counterexample: the disabled entry at index 0 carries hotkey x;
pressing x falls to the case-insensitive pass, which matches the
enabled sibling of hotkey X: the selection moves and its action is
emitted, refuting the claimed unconditional no-op. -/
theorem c5_disabled_hotkey_still_acts :
    update c5cexModel (.key "x") = some (c5cexModel.withSelection 1, some 7) ∧
    c5cexModel.selection = 0 ∧
    (c5cexModel.withSelection 1).selection = 1 ∧
    (getI c5cexModel.items 0).map MenuItem.disabled = some true ∧
    (getI c5cexModel.items 0).map MenuItem.hotkey = some "x" :=
  ⟨rfl, rfl, rfl, rfl, rfl⟩

/-- An index returned by the bar hit-test loop is carried by the walked
list. -/
theorem findColAux_mem (m : Model) (x : Int) :
    ∀ (l : List (Nat × MenuItem)) (curX : Int) (i : Nat),
      findColAux m x l curX = some i → ∃ it, (i, it) ∈ l := by
  intro l
  induction l with
  | nil => intro curX i h; simp [findColAux] at h
  | cons hd tl ih =>
    intro curX i h
    obtain ⟨j, it⟩ := hd
    simp only [findColAux] at h
    split at h
    · cases h
      exact ⟨it, by simp⟩
    · obtain ⟨it', hmem⟩ := ih _ _ h
      exact ⟨it', by simp [hmem]⟩

/-- A hit index of findCol addresses a real item of the model. -/
theorem findCol_get (m : Model) (baseX x : Int) (i : Nat)
    (h : findCol m baseX x = some i) : ∃ it, m.items.get? i = some it := by
  obtain ⟨it, hmem⟩ := findColAux_mem m x _ _ _ h
  rw [List.mk_mem_enum_iff_getElem?] at hmem
  exact ⟨it, by rw [List.get?_eq_getElem?, hmem]⟩

/-- C3 (amended): the selectable-selection property is not preserved by
every operation: initial construction sets selectionIndex to 0
unconditionally, and a bar-level pointer motion over item i moves the
selection to i regardless of the entry's kind (no separator or disabled
exclusion is applied at bar level). -/
theorem c3_construction_and_bar_pointer :
    (∀ items, (NewModel items).selection = 0) ∧
    (∀ (items : List MenuItem) (act : Bool) (sel : Int) (st : StylesCfg)
       (mm : Mouse) (i : Nat),
       mm.kind = .motion → 0 ≤ mm.y → mm.y < (st.barH : Int) →
       findCol (Model.mk items act sel (-1) none false st) 0 mm.x = some i →
       checkMouse (Model.mk items act sel (-1) none false st) mm 0 0
         = some ((Model.mk items act sel (-1) none false st).withSelection i,
             true, none)) := by
  constructor
  · intro items; rfl
  · intro items act sel st mm i hkind hy0 hy1 hcol
    obtain ⟨it, hget⟩ := findCol_get _ _ _ _ hcol
    simp only [checkMouse, checkSelf, Model.isDropdown, Model.styles,
      Bool.false_eq_true, if_false]
    rw [if_pos ⟨hy0, by omega⟩]
    rw [hcol]
    simp only [Model.items] at hget ⊢
    rw [hget]
    rw [hkind]
    simp [Model.withSelection, Model.openSubMenu]

/-- C3 witness: a pointer motion over the bar separator at index 0
selects the separator. -/
theorem c3_construction_and_bar_pointer_witness :
    checkMouse (Model.mk sepFirstItems true 0 (-1) none false defaultStyles)
        ⟨1, 0, .motion⟩ 0 0
      = some ((Model.mk sepFirstItems true 0 (-1) none false
          defaultStyles).withSelection 0, true, none) ∧
    sepFirstItems.get? 0 = some SeparatorItem :=
  ⟨c3_construction_and_bar_pointer.2 sepFirstItems true 0 defaultStyles
      ⟨1, 0, .motion⟩ 0 rfl (by decide) (by decide) rfl,
   rfl⟩

/-- C3 counterexample: right after construction with a separator-first
item list, the selection (0) points at a non-selectable entry although
a selectable entry exists at index 1 — the claimed invariant fails at
construction. -/
theorem c3_new_violates_invariant :
    (NewModel sepFirstItems).selection = 0 ∧
    selOK sepFirstItems 0 = false ∧
    selOK sepFirstItems 1 = true :=
  ⟨rfl, by decide, by decide⟩

/-- A child model is structurally smaller than its parent. -/
theorem sizeOf_child_lt (items : List MenuItem) (act : Bool) (sel osm : Int)
    (dd : Bool) (st : StylesCfg) (s : Model) :
    sizeOf s < sizeOf (Model.mk items act sel osm (some s) dd st) := by
  simp only [Model.mk.sizeOf_spec, Option.some.sizeOf_spec]
  omega

/-- Induction down the open chain of a model: to prove a property of
every model it suffices to prove it of a node assuming it of the node's
child. -/
theorem Model.chainInduction (P : Model → Prop)
    (h : ∀ items act sel osm subOpt dd st,
       (∀ s, subOpt = some s → P s) → P (.mk items act sel osm subOpt dd st)) :
    ∀ m, P m := by
  have H : ∀ k m, sizeOf m ≤ k → P m := by
    intro k
    induction k with
    | zero =>
      intro m hm
      cases m with
      | mk items act sel osm subOpt dd st =>
        exfalso
        have : 0 < sizeOf (Model.mk items act sel osm subOpt dd st) := by
          simp only [Model.mk.sizeOf_spec]; omega
        omega
    | succ k ih =>
      intro m hm
      cases m with
      | mk items act sel osm subOpt dd st =>
        apply h
        intro s hsub
        subst hsub
        have := sizeOf_child_lt items act sel osm dd st s
        exact ih s (by omega)
  exact fun m => H (sizeOf m) m le_rfl

/-- The self hit test returns the model unchanged and no command
whenever it does not claim the event. -/
theorem checkSelf_false (m : Model) (msg : Mouse) (bx by_ : Int)
    (m' : Model) (c : Option Nat)
    (h : checkSelf m msg bx by_ = some (m', false, c)) : m' = m ∧ c = none := by
  simp only [checkSelf] at h
  repeat' split at h
  all_goals simp_all

/-- The full recursive hit test returns the model unchanged and no
command whenever nothing at any level claims the event. -/
theorem checkMouse_false :
    ∀ (m : Model) (msg : Mouse) (bx by_ : Int) (m' : Model) (c : Option Nat),
      checkMouse m msg bx by_ = some (m', false, c) → m' = m ∧ c = none := by
  intro m
  induction m using Model.chainInduction with
  | h items act sel osm subOpt dd st ih =>
    intro msg bx by_ m' c h
    cases subOpt with
    | none =>
      simp only [checkMouse] at h
      exact checkSelf_false _ _ _ _ _ _ h
    | some sub =>
      simp only [checkMouse] at h
      by_cases hosm : osm ≠ -1
      · rw [if_pos hosm] at h
        split at h
        · cases h
        · split at h
          · cases h
          · rename_i sub2 handled cmd heq
            split at h
            · cases h
            · rename_i hhand
              have hh : handled = false := by
                cases handled
                · rfl
                · exact absurd rfl hhand
              subst hh
              obtain ⟨hs, hc⟩ := ih sub rfl msg _ _ sub2 cmd heq
              subst hs hc
              exact checkSelf_false _ _ _ _ _ _ h
      · rw [if_neg hosm] at h
        exact checkSelf_false _ _ _ _ _ _ h

/-- C7: a pointer release claimed by neither the bar nor any open
dropdown level (the recursive hit test reports it unhandled) leaves the
model untouched by the hit test, and handleMouse then collapses
everything: the bar becomes inactive, the open-child index is cleared,
the whole child chain is discarded, and no command is emitted. -/
theorem c7_outside_release_collapses (m : Model) (mm : Mouse)
    (m' : Model) (c : Option Nat)
    (hkind : mm.kind = .release)
    (h : checkMouse m mm 0 0 = some (m', false, c)) :
    handleMouse m mm = some (m.deactivateAll, none) ∧
    (m.deactivateAll).active = false ∧
    (m.deactivateAll).openSubMenu = -1 ∧
    (m.deactivateAll).subMenuState = none := by
  obtain ⟨hm, hc⟩ := checkMouse_false m mm 0 0 m' c h
  subst hm hc
  refine ⟨?_, ?_, ?_, ?_⟩
  · unfold handleMouse
    rw [h]
    simp [hkind]
  · cases m'; rfl
  · cases m'; rfl
  · cases m'; rfl

/-- C7 witness: a release far outside a one-item bar. -/
theorem c7_outside_release_collapses_witness :
    handleMouse c7wModel ⟨50, 50, .release⟩ = some (c7wModel.deactivateAll, none) :=
  (c7_outside_release_collapses c7wModel ⟨50, 50, .release⟩ c7wModel none rfl rfl).1

/-- An index the Go slice access accepts is non-negative. -/
theorem getI_nonneg {items : List MenuItem} {i : Int} {it : MenuItem}
    (h : getI items i = some it) : 0 ≤ i := by
  unfold getI at h
  by_cases hi : i < 0
  · rw [if_pos hi] at h; cases h
  · omega

theorem linkedOK_withSelection (m : Model) (s : Int) :
    linkedOK (m.withSelection s) = linkedOK m := by
  cases m with
  | mk items act sel osm subOpt dd st => cases subOpt <;> rfl

theorem linkedOK_withActive (m : Model) (a : Bool) :
    linkedOK (m.withActive a) = linkedOK m := by
  cases m with
  | mk items act sel osm subOpt dd st => cases subOpt <;> rfl

theorem linkedOK_clearChild (m : Model) : linkedOK m.clearChild = true := by
  cases m; rfl

theorem linkedOK_deactivateAll (m : Model) : linkedOK m.deactivateAll = true := by
  cases m; rfl

theorem linkedOK_dropChild (st : StylesCfg) (l : List MenuItem) :
    linkedOK (dropChild st l) = true := rfl

/-- Opening the current selection keeps the linked-child invariant. -/
theorem linkedOK_open {m m' : Model} (hl : linkedOK m = true)
    (h : openCurrentSelection m = some m') : linkedOK m' = true := by
  unfold openCurrentSelection at h
  split at h
  · cases h
  · rename_i it hg
    split at h
    · cases h
      have hpos := getI_nonneg hg
      cases m with
      | mk items act sel osm subOpt dd st =>
        simp only [Model.selection] at hpos
        simp only [Model.withOpenChild, Model.selection, Model.styles,
          dropChild, linkedOK, Bool.and_eq_true, bne_iff_ne]
        exact ⟨by omega, by decide⟩
    · cases h
      exact hl

/-- Specializations of linkedOK_open through the selection and
activation updates, used to close hit-test branches. -/
theorem linkedOK_open_comp1 {m m' : Model} {s : Int} (hl : linkedOK m = true)
    (h : openCurrentSelection (m.withSelection s) = some m') :
    linkedOK m' = true :=
  linkedOK_open (by rw [linkedOK_withSelection]; exact hl) h

theorem linkedOK_open_comp2 {m m' : Model} {s : Int} (hl : linkedOK m = true)
    (h : openCurrentSelection ((m.withSelection s).withActive true) = some m') :
    linkedOK m' = true :=
  linkedOK_open (by rw [linkedOK_withActive, linkedOK_withSelection]; exact hl) h

/-- The hotkey-match body keeps the linked-child invariant. -/
theorem linkedOK_applyHot {m m' : Model} {i : Nat} {c : Option Nat}
    (hl : linkedOK m = true) (h : applyHot m i = some (m', c)) :
    linkedOK m' = true := by
  simp only [applyHot] at h
  repeat' split at h
  all_goals try cases h
  all_goals
    first
    | (rw [linkedOK_withSelection]; exact hl)
    | exact linkedOK_open_comp1 hl (by assumption)

/-- The directional key switch keeps the linked-child invariant. -/
theorem linkedOK_keySwitch {m m' : Model} {key : String} {c : Option Nat}
    (hl : linkedOK m = true) (h : keySwitch m key = some (m', c)) :
    linkedOK m' = true := by
  unfold keySwitch at h
  repeat' split at h
  all_goals try cases h
  all_goals
    first
    | exact hl
    | (simp only [linkedOK_withActive, linkedOK_withSelection,
         linkedOK_clearChild]; exact hl)
    | simp only [linkedOK_clearChild]
    | exact linkedOK_open hl (by assumption)
    | exact linkedOK_open_comp1 hl (by assumption)
    | exact linkedOK_open_comp2 hl (by assumption)
    | simp_all

/-- The no-child keyboard path keeps the linked-child invariant. -/
theorem linkedOK_keyNoChild {m m' : Model} {key : String} {c : Option Nat}
    (hl : linkedOK m = true) (h : keyNoChild m key = some (m', c)) :
    linkedOK m' = true := by
  unfold keyNoChild at h
  repeat' split at h
  · exact linkedOK_applyHot hl h
  · exact linkedOK_applyHot hl h
  · exact linkedOK_keySwitch hl h

/-- The self hit test keeps the linked-child invariant. -/
theorem linkedOK_checkSelf {m m' : Model} {msg : Mouse} {bx by_ : Int}
    {hd : Bool} {c : Option Nat}
    (hl : linkedOK m = true) (h : checkSelf m msg bx by_ = some (m', hd, c)) :
    linkedOK m' = true := by
  simp only [checkSelf] at h
  repeat' split at h
  all_goals try cases h
  all_goals
    first
    | exact hl
    | (simp only [linkedOK_withActive, linkedOK_withSelection,
         linkedOK_clearChild]; exact hl)
    | simp only [linkedOK_clearChild]
    | exact linkedOK_open hl (by assumption)
    | exact linkedOK_open_comp1 hl (by assumption)
    | exact linkedOK_open_comp2 hl (by assumption)
    | simp_all

/-- A node with an open child satisfies the invariant when its index is
set and the child satisfies it. -/
theorem linkedOK_mk_some {items : List MenuItem} {act : Bool} {sel osm : Int}
    {sub : Model} {dd : Bool} {st : StylesCfg} (h1 : osm ≠ -1)
    (h2 : linkedOK sub = true) :
    linkedOK (Model.mk items act sel osm (some sub) dd st) = true := by
  simp only [linkedOK, Bool.and_eq_true, bne_iff_ne]
  exact ⟨h1, h2⟩

/-- The recursive hit test keeps the linked-child invariant. -/
theorem linkedOK_checkMouse :
    ∀ (m : Model) (msg : Mouse) (bx by_ : Int) (m' : Model) (hd : Bool)
      (c : Option Nat), linkedOK m = true →
      checkMouse m msg bx by_ = some (m', hd, c) → linkedOK m' = true := by
  intro m
  induction m using Model.chainInduction with
  | h items act sel osm subOpt dd st ih =>
    intro msg bx by_ m' hd c hl h
    cases subOpt with
    | none =>
      simp only [checkMouse] at h
      exact linkedOK_checkSelf hl h
    | some sub =>
      have hsub : linkedOK sub = true := by
        simp only [linkedOK, Bool.and_eq_true] at hl
        exact hl.2
      simp only [checkMouse] at h
      by_cases hosm : osm ≠ -1
      · rw [if_pos hosm] at h
        split at h
        · cases h
        · split at h
          · cases h
          · rename_i sub2 handled cmd heq
            have hsub2 : linkedOK sub2 = true := ih sub rfl msg _ _ sub2 handled cmd hsub heq
            have hm1 : linkedOK (Model.mk items act sel osm (some sub2) dd st) = true := by
              simp only [linkedOK, Bool.and_eq_true, bne_iff_ne]
              exact ⟨hosm, hsub2⟩
            split at h
            · cases h
              exact hm1
            · exact linkedOK_checkSelf hm1 h
      · rw [if_neg hosm] at h
        exact linkedOK_checkSelf hl h

/-- The mouse dispatcher keeps the linked-child invariant. -/
theorem linkedOK_handleMouse {m m' : Model} {mm : Mouse} {c : Option Nat}
    (hl : linkedOK m = true) (h : handleMouse m mm = some (m', c)) :
    linkedOK m' = true := by
  unfold handleMouse at h
  split at h
  · cases h
  · rename_i m1 hd cmd heq
    split at h
    · cases h
      exact linkedOK_deactivateAll _
    · cases h
      exact linkedOK_checkMouse _ _ _ _ _ _ _ hl heq

/-- The full update keeps the linked-child invariant. -/
theorem linkedOK_update :
    ∀ (m : Model) (msg : Msg) (m' : Model) (c : Option Nat),
      linkedOK m = true → update m msg = some (m', c) → linkedOK m' = true := by
  intro m
  induction m using Model.chainInduction with
  | h items act sel osm subOpt dd st ih =>
    intro msg m' c hl h
    cases subOpt with
    | none =>
      cases msg with
      | mouse mm =>
        simp only [update] at h
        exact linkedOK_handleMouse hl h
      | key key =>
        simp only [update] at h
        split at h
        · cases h; exact hl
        · exact linkedOK_keyNoChild hl h
    | some sub =>
      have hosm : osm ≠ -1 ∧ linkedOK sub = true := by
        simpa only [linkedOK, Bool.and_eq_true, bne_iff_ne] using hl
      cases msg with
      | mouse mm =>
        simp only [update] at h
        exact linkedOK_handleMouse hl h
      | key key =>
        simp only [update] at h
        split at h
        · cases h; exact hl
        · split at h
          · exact linkedOK_keyNoChild hl h
          · have hdeleg : ∀ (h' : (match update sub (Msg.key key) with
                | none => none
                | some (sub2, cmd) =>
                  let m1 := Model.mk items act sel osm (some sub2) dd st
                  if sub2.active = false then some (m1.clearChild, cmd)
                  else some (m1, cmd)) = some (m', c)), linkedOK m' = true := by
              intro h'
              split at h'
              · cases h'
              · rename_i sub2 cmd heq
                have hsub2 : linkedOK sub2 = true :=
                  ih sub rfl (Msg.key key) sub2 cmd hosm.2 heq
                split at h'
                · cases h'
                  exact linkedOK_clearChild _
                · cases h'
                  simp only [linkedOK, Bool.and_eq_true, bne_iff_ne]
                  exact ⟨hosm.1, hsub2⟩
            repeat' split at h
            all_goals try cases h
            all_goals
              first
              | exact hdeleg h
              | (refine linkedOK_open ?_ (by assumption);
                 exact linkedOK_mk_some hosm.1 hosm.2)
              | simp_all

/-- C6: the single-open-chain invariant — a node's child reference is
present exactly when its open-child index is set, recursively — holds
of a fresh model and is preserved by every successful update (keyboard
or pointer); and opening the submenu of the currently selected sibling
B replaces whatever child was open with exactly one child built from
B's submenu (itself with no open child), recording B as the open-child
index. -/
theorem c6_single_open_chain :
    (∀ items, linkedOK (NewModel items) = true) ∧
    (∀ (m : Model) (msg : Msg) (r : Model × Option Nat),
       linkedOK m = true → update m msg = some r → linkedOK r.1 = true) ∧
    (∀ (m : Model) (it : MenuItem),
       m.openSubMenu ≠ -1 →
       getI m.items m.selection = some it →
       it.subMenu.length > 0 →
       openCurrentSelection m
         = some (m.withOpenChild m.selection (dropChild m.styles it.subMenu)) ∧
       (m.withOpenChild m.selection (dropChild m.styles it.subMenu)).openSubMenu
         = m.selection ∧
       (m.withOpenChild m.selection (dropChild m.styles it.subMenu)).subMenuState
         = some (dropChild m.styles it.subMenu) ∧
       (dropChild m.styles it.subMenu).subMenuState = none) := by
  refine ⟨fun items => rfl, ?_, ?_⟩
  · intro m msg r hl hu
    exact linkedOK_update m msg r.1 r.2 hl hu
  · intro m it hosm hit hsub
    refine ⟨?_, ?_, ?_, rfl⟩
    · unfold openCurrentSelection
      rw [hit]
      simp [hsub]
    · cases m; rfl
    · cases m; rfl

/-- C6 witness: opening the File menu from the keyboard preserves the
invariant. -/
theorem c6_single_open_chain_witness : linkedOK c6wAfter.1 = true :=
  c6_single_open_chain.2.1 c6wModel (.key "down") c6wAfter rfl rfl

/-- In-range int indices address a real item. -/
theorem getI_of_lt (items : List MenuItem) (i : Int) (h0 : 0 ≤ i)
    (h1 : i < (items.length : Int)) : ∃ it, getI items i = some it := by
  unfold getI
  rw [if_neg (by omega)]
  have hlt : i.toNat < items.length := by omega
  exact ⟨items.get ⟨i.toNat, hlt⟩, List.get?_eq_get hlt⟩

/-- Selectability unfolded to the underlying item. -/
theorem selOK_iff (items : List MenuItem) (i : Int) :
    selOK items i = true ↔
      ∃ it, getI items i = some it ∧ it.isSeparator = false ∧ it.disabled = false := by
  unfold selOK
  cases hg : getI items i with
  | none => simp
  | some it =>
    constructor
    · intro h
      refine ⟨it, rfl, ?_, ?_⟩ <;> simp_all
    · rintro ⟨it', hit', h1, h2⟩
      cases hit'
      simp [h1, h2]

/-- Selectability rewritten through a known item lookup. -/
theorem selOK_some {items : List MenuItem} {i : Int} {it : MenuItem}
    (hg : getI items i = some it) :
    selOK items i = (!it.isSeparator && !it.disabled) := by
  unfold selOK
  rw [hg]

/-- On in-range non-negative selections the wraparound increment is the
modular successor. -/
theorem wrapInc_emod (s : Int) (n : Nat) (h0 : 0 ≤ s) (h1 : s < (n : Int)) :
    wrapInc s n = (s + 1) % (n : Int) := by
  unfold wrapInc
  by_cases h : s + 1 ≥ (n : Int)
  · rw [if_pos h]
    have hs : s + 1 = (n : Int) := by omega
    rw [hs, Int.emod_self]
  · rw [if_neg h]
    rw [Int.emod_eq_of_lt (by omega) (by omega)]

/-- Shifting the accumulated offset through the modular step. -/
theorem emod_shift (cur n : Int) (e : Nat) :
    ((cur + 1) % n + (e : Int)) % n = (cur + ((e + 1 : Nat) : Int)) % n := by
  rw [Int.emod_add_emod]
  congr 1
  push_cast
  ring

/-- The forward skip loop stops at once on a selectable position. -/
theorem skipFwd_sel (items : List MenuItem) (start : Int) (fuel : Nat)
    (sel : Int) (it : MenuItem) (hg : getI items sel = some it)
    (hok : (it.isSeparator || it.disabled) = false) :
    skipFwd items start fuel sel = some sel := by
  cases fuel <;> simp [skipFwd, hg, hok]

/-- The forward skip loop steps over a separator or disabled position.  -/
theorem skipFwd_step (items : List MenuItem) (start : Int) (f : Nat)
    (sel : Int) (it : MenuItem) (hg : getI items sel = some it)
    (hbad : (it.isSeparator || it.disabled) = true) :
    skipFwd items start (f + 1) sel =
      if wrapInc sel items.length = start then some (wrapInc sel items.length)
      else skipFwd items start f (wrapInc sel items.length) := by
  simp [skipFwd, hg, hbad]

/-- The forward skip loop, started at position cur with the start guard
at p, lands on the first selectable position at cyclic distance d from
cur, provided d steps of fuel remain, no earlier position is selectable,
and the walk does not pass through p. -/
theorem skipFwd_finds (items : List MenuItem) (p : Int) :
    ∀ (d : Nat) (cur : Int) (fuel : Nat),
      0 ≤ cur → cur < (items.length : Int) → d ≤ fuel →
      selOK items ((cur + (d : Int)) % (items.length : Int)) = true →
      (∀ e : Nat, e < d →
        selOK items ((cur + (e : Int)) % (items.length : Int)) = false) →
      (∀ e : Nat, 0 < e → e ≤ d →
        (cur + (e : Int)) % (items.length : Int) ≠ p) →
      skipFwd items p fuel cur = some ((cur + (d : Int)) % (items.length : Int)) := by
  intro d
  induction d with
  | zero =>
    intro cur fuel h0 h1 _ hsel _ _
    have hcur : (cur + ((0 : Nat) : Int)) % (items.length : Int) = cur := by
      simpa using Int.emod_eq_of_lt h0 h1
    rw [hcur] at hsel ⊢
    obtain ⟨it, hgi, hs, hd⟩ := (selOK_iff items cur).mp hsel
    exact skipFwd_sel items p fuel cur it hgi (by simp [hs, hd])
  | succ d ih =>
    intro cur fuel h0 h1 hf hsel hlt hne
    have hnpos : (0 : Int) < (items.length : Int) := by omega
    have hcur0 : selOK items cur = false := by
      have h := hlt 0 (by omega)
      simpa [Int.emod_eq_of_lt h0 h1] using h
    obtain ⟨it, hgi⟩ := getI_of_lt items cur h0 h1
    have hsd : (it.isSeparator || it.disabled) = true := by
      rw [selOK_some hgi] at hcur0
      cases hsep : it.isSeparator
      · cases hdis : it.disabled
        · rw [hsep, hdis] at hcur0
          simp at hcur0
        · simp [hdis]
      · simp [hsep]
    obtain ⟨f, rfl⟩ : ∃ f, fuel = f + 1 := ⟨fuel - 1, by omega⟩
    have hw : wrapInc cur items.length = (cur + 1) % (items.length : Int) :=
      wrapInc_emod cur items.length h0 h1
    have hne1 : (cur + 1) % (items.length : Int) ≠ p := by
      have h := hne 1 (by omega) (by omega)
      simpa using h
    rw [skipFwd_step items p f cur it hgi hsd]
    rw [hw, if_neg hne1]
    have hrec := ih ((cur + 1) % (items.length : Int)) f
      (Int.emod_nonneg _ (by omega)) (Int.emod_lt_of_pos _ hnpos) (by omega)
      (by rw [emod_shift]; exact hsel)
      (fun e he => by rw [emod_shift]; exact hlt (e + 1) (by omega))
      (fun e he0 he1 => by rw [emod_shift]; exact hne (e + 1) (by omega) (by omega))
    rw [hrec, emod_shift]

/-- A value with zero remainder that lies strictly between -n and n is
zero. -/
theorem emod_eq_zero_small {x n : Int} (hn : 0 < n) (h1 : -n < x) (h2 : x < n)
    (h : x % n = 0) : x = 0 := by
  rcases le_or_lt 0 x with hx | hx
  · rw [Int.emod_eq_of_lt hx h2] at h
    exact h
  · exfalso
    have he : (x + n) % n = x % n := by
      have := Int.add_mul_emod_self_left x n 1
      simpa using this
    rw [h] at he
    rw [Int.emod_eq_of_lt (by omega) (by omega)] at he
    omega

/-- Characterization of the move-next operation on an in-range
selection when a selectable entry exists: it succeeds and lands on the
cyclically first selectable position strictly after the selection. -/
theorem moveNext_spec (items : List MenuItem) (s : Int)
    (hex : ∃ j : Nat, j < items.length ∧ selOK items ((j : Nat) : Int) = true)
    (hs0 : 0 ≤ s) (hs1 : s < (items.length : Int)) :
    ∃ t : Int, moveNext items s = some t ∧ 0 ≤ t ∧ t < (items.length : Int) ∧
      selOK items t = true ∧
      ∃ d : Nat, d < items.length ∧
        t = (s + 1 + (d : Int)) % (items.length : Int) ∧
        ∀ e : Nat, e < d →
          selOK items ((s + 1 + (e : Int)) % (items.length : Int)) = false := by
  obtain ⟨j, hj, hjsel⟩ := hex
  have hn : 0 < items.length := by omega
  have hnpos : (0 : Int) < (items.length : Int) := by omega
  have hnz : ((items.length : Int)) ≠ 0 := by omega
  have hp0 : 0 ≤ (s + 1) % (items.length : Int) := Int.emod_nonneg _ hnz
  have hp1 : (s + 1) % (items.length : Int) < (items.length : Int) :=
    Int.emod_lt_of_pos _ hnpos
  have hshift : ∀ e : Nat,
      ((s + 1) % (items.length : Int) + (e : Int)) % (items.length : Int)
        = (s + 1 + (e : Int)) % (items.length : Int) := by
    intro e
    rw [Int.emod_add_emod]
  have hexd : ∃ e : Nat,
      selOK items ((s + 1 + (e : Int)) % (items.length : Int)) = true := by
    refine ⟨(((j : Int) - (s + 1)) % (items.length : Int)).toNat, ?_⟩
    have hge : 0 ≤ ((j : Int) - (s + 1)) % (items.length : Int) :=
      Int.emod_nonneg _ hnz
    have heq : (s + 1 + ((((j : Int) - (s + 1)) % (items.length : Int)).toNat : Int))
        % (items.length : Int) = (j : Int) := by
      rw [Int.toNat_of_nonneg hge, Int.add_emod_emod]
      have : s + 1 + ((j : Int) - (s + 1)) = (j : Int) := by ring
      rw [this, Int.emod_eq_of_lt (by omega) (by omega)]
    rw [heq]
    exact hjsel
  classical
  have hd_sel := Nat.find_spec hexd
  have hd_min : ∀ e, e < Nat.find hexd →
      selOK items ((s + 1 + (e : Int)) % (items.length : Int)) = false := by
    intro e he
    have := Nat.find_min hexd he
    simpa using this
  have hdn : Nat.find hexd < items.length := by
    have hb : (((j : Int) - (s + 1)) % (items.length : Int)).toNat < items.length := by
      have := Int.emod_lt_of_pos ((j : Int) - (s + 1)) hnpos
      have := Int.emod_nonneg ((j : Int) - (s + 1)) hnz
      omega
    have hle : Nat.find hexd ≤ (((j : Int) - (s + 1)) % (items.length : Int)).toNat := by
      apply Nat.find_min'
      have hge : 0 ≤ ((j : Int) - (s + 1)) % (items.length : Int) :=
        Int.emod_nonneg _ hnz
      have heq : (s + 1 + ((((j : Int) - (s + 1)) % (items.length : Int)).toNat : Int))
          % (items.length : Int) = (j : Int) := by
        rw [Int.toNat_of_nonneg hge, Int.add_emod_emod]
        have : s + 1 + ((j : Int) - (s + 1)) = (j : Int) := by ring
        rw [this, Int.emod_eq_of_lt (by omega) (by omega)]
      rw [heq]
      exact hjsel
    omega
  have hne : ∀ e : Nat, 0 < e → e ≤ Nat.find hexd →
      ((s + 1) % (items.length : Int) + (e : Int)) % (items.length : Int)
        ≠ (s + 1) % (items.length : Int) := by
    intro e he0 he1 hcontra
    rw [hshift] at hcontra
    have hz : ((s + 1 + (e : Int)) - (s + 1)) % (items.length : Int) = 0 :=
      Int.emod_eq_emod_iff_emod_sub_eq_zero.mp hcontra
    have he' : ((e : Int)) % (items.length : Int) = 0 := by
      have : s + 1 + (e : Int) - (s + 1) = (e : Int) := by ring
      rwa [this] at hz
    have : (e : Int) = 0 := by
      apply emod_eq_zero_small hnpos (by omega) (by omega) he'
    omega
  have hloop := skipFwd_finds items ((s + 1) % (items.length : Int))
    (Nat.find hexd) ((s + 1) % (items.length : Int)) items.length hp0 hp1
    (by omega)
    (by rw [hshift]; exact hd_sel)
    (fun e he => by rw [hshift]; exact hd_min e he)
    hne
  refine ⟨(s + 1 + ((Nat.find hexd : Nat) : Int)) % (items.length : Int), ?_, ?_, ?_, ?_,
    Nat.find hexd, hdn, rfl, hd_min⟩
  · unfold moveNext
    rw [wrapInc_emod s items.length hs0 hs1]
    rw [hloop, hshift]
  · exact Int.emod_nonneg _ hnz
  · exact Int.emod_lt_of_pos _ hnpos
  · exact hd_sel

/-- Two selectable in-range selections with the same move-next target
are equal: the target is the cyclically first selectable position after
each of them, and a selectable point cannot lie strictly inside the
other's gap. -/
theorem moveNext_inj (items : List MenuItem) (a b t : Int)
    (hn : 0 < items.length)
    (ha0 : 0 ≤ a) (ha1 : a < (items.length : Int)) (hasel : selOK items a = true)
    (hb0 : 0 ≤ b) (hb1 : b < (items.length : Int)) (hbsel : selOK items b = true)
    (da db : Nat) (hdan : da < items.length) (hdbn : db < items.length)
    (hta : t = (a + 1 + (da : Int)) % (items.length : Int))
    (htb : t = (b + 1 + (db : Int)) % (items.length : Int))
    (hma : ∀ e : Nat, e < da →
      selOK items ((a + 1 + (e : Int)) % (items.length : Int)) = false)
    (hmb : ∀ e : Nat, e < db →
      selOK items ((b + 1 + (e : Int)) % (items.length : Int)) = false) :
    a = b := by
  by_contra hab
  set n : Int := (items.length : Int) with hnn
  have hnpos : (0 : Int) < n := by omega
  have hnz : n ≠ 0 := by omega
  set e0 : Int := (b - a - 1) % n with he0def
  set f0 : Int := (a - b - 1) % n with hf0def
  have he0ge : 0 ≤ e0 := Int.emod_nonneg _ hnz
  have he0lt : e0 < n := Int.emod_lt_of_pos _ hnpos
  have hf0ge : 0 ≤ f0 := Int.emod_nonneg _ hnz
  have hf0lt : f0 < n := Int.emod_lt_of_pos _ hnpos
  have hb_of : (a + 1 + (e0.toNat : Int)) % n = b := by
    rw [Int.toNat_of_nonneg he0ge, he0def, Int.add_emod_emod]
    have h : a + 1 + (b - a - 1) = b := by ring
    rw [h, Int.emod_eq_of_lt hb0 hb1]
  have ha_of : (b + 1 + (f0.toNat : Int)) % n = a := by
    rw [Int.toNat_of_nonneg hf0ge, hf0def, Int.add_emod_emod]
    have h : b + 1 + (a - b - 1) = a := by ring
    rw [h, Int.emod_eq_of_lt ha0 ha1]
  have he0da : (da : Int) ≤ e0 := by
    by_contra hcon
    have hx := hma e0.toNat (by omega)
    rw [hb_of] at hx
    rw [hx] at hbsel
    cases hbsel
  have hf0db : (db : Int) ≤ f0 := by
    by_contra hcon
    have hx := hmb f0.toNat (by omega)
    rw [ha_of] at hx
    rw [hx] at hasel
    cases hasel
  have hcong1 : (da : Int) + n = e0 + 1 + db := by
    have h1 : (a + 1 + (da : Int)) % n = (b + 1 + (db : Int)) % n := by
      rw [← hta, ← htb]
    have h2 : (a + 1 + e0 + 1 + (db : Int)) % n = (b + 1 + (db : Int)) % n := by
      have e1 : a + 1 + e0 + 1 + (db : Int) = e0 + (a + 2 + db) := by ring
      rw [e1, he0def, Int.emod_add_emod]
      congr 1
      ring
    have h3 := Int.emod_eq_emod_iff_emod_sub_eq_zero.mp (h1.trans h2.symm)
    have h4 : ((da : Int) - e0 - 1 - db) % n = 0 := by
      have e2 : (a + 1 + (da : Int)) - (a + 1 + e0 + 1 + db)
          = (da : Int) - e0 - 1 - db := by ring
      rwa [e2] at h3
    obtain ⟨k, hk⟩ := Int.dvd_of_emod_eq_zero h4
    have hk1 : k = -1 := by
      have hlb : -(2 * n) < (da : Int) - e0 - 1 - db := by omega
      have hub : (da : Int) - e0 - 1 - db < 0 := by omega
      rw [hk] at hlb hub
      by_contra hc
      rcases lt_or_gt_of_ne hc with hlt | hgt
      · have hle : n * k ≤ n * (-2) := by
          apply mul_le_mul_of_nonneg_left (by omega) (by omega)
        omega
      · have hge : 0 ≤ n * k := mul_nonneg (by omega) (by omega)
        omega
    rw [hk1] at hk
    omega
  have hcong2 : (db : Int) + n = f0 + 1 + da := by
    have h1 : (b + 1 + (db : Int)) % n = (a + 1 + (da : Int)) % n := by
      rw [← hta, ← htb]
    have h2 : (b + 1 + f0 + 1 + (da : Int)) % n = (a + 1 + (da : Int)) % n := by
      have e1 : b + 1 + f0 + 1 + (da : Int) = f0 + (b + 2 + da) := by ring
      rw [e1, hf0def, Int.emod_add_emod]
      congr 1
      ring
    have h3 := Int.emod_eq_emod_iff_emod_sub_eq_zero.mp (h1.trans h2.symm)
    have h4 : ((db : Int) - f0 - 1 - da) % n = 0 := by
      have e2 : (b + 1 + (db : Int)) - (b + 1 + f0 + 1 + da)
          = (db : Int) - f0 - 1 - da := by ring
      rwa [e2] at h3
    obtain ⟨k, hk⟩ := Int.dvd_of_emod_eq_zero h4
    have hk1 : k = -1 := by
      have hlb : -(2 * n) < (db : Int) - f0 - 1 - da := by omega
      have hub : (db : Int) - f0 - 1 - da < 0 := by omega
      rw [hk] at hlb hub
      by_contra hc
      rcases lt_or_gt_of_ne hc with hlt | hgt
      · have hle : n * k ≤ n * (-2) := by
          apply mul_le_mul_of_nonneg_left (by omega) (by omega)
        omega
      · have hge : 0 ≤ n * k := mul_nonneg (by omega) (by omega)
        omega
    rw [hk1] at hk
    omega
  have he0top : e0 = n - 1 := by omega
  have hz : (b - a) % n = 0 := by
    have h1 : ((b - a - 1) % n + 1) % n = (b - a) % n := by
      rw [Int.emod_add_emod]
      congr 1
      ring
    rw [← h1, ← he0def, he0top]
    have h2 : n - 1 + 1 = n := by ring
    rw [h2, Int.emod_self]
  have hba : b - a = 0 := emod_eq_zero_small hnpos (by omega) (by omega) hz
  omega

/-- The totalized step agrees with moveNext on selectable indices. -/
theorem stepSel_moveNext (items : List MenuItem)
    (hex : ∃ j : Nat, j < items.length ∧ selOK items ((j : Nat) : Int) = true)
    (x : SelIdx items) :
    moveNext items ((x.1 : Nat) : Int) = some (((stepSel items x).1 : Nat) : Int) := by
  obtain ⟨t, ht, ht0, ht1, htsel, -⟩ :=
    moveNext_spec items ((x.1 : Nat) : Int) hex (by positivity)
      (by exact_mod_cast x.1.isLt)
  have hs : ((stepSel items x).1 : Int) = t := by
    unfold stepSel
    simp only [ht]
    rw [dif_pos ⟨ht0, ht1, htsel⟩]
    simp [Int.toNat_of_nonneg ht0]
  rw [hs]
  exact ht

/-- The totalized step is injective when a selectable entry exists. -/
theorem stepSel_inj (items : List MenuItem)
    (hex : ∃ j : Nat, j < items.length ∧ selOK items ((j : Nat) : Int) = true) :
    Function.Injective (stepSel items) := by
  have hn : 0 < items.length := by
    obtain ⟨j, hj, -⟩ := hex
    omega
  intro x y hxy
  obtain ⟨tx, htx, htx0, htx1, htxsel, dx, hdxn, htxe, hmx⟩ :=
    moveNext_spec items ((x.1 : Nat) : Int) hex (by positivity)
      (by exact_mod_cast x.1.isLt)
  obtain ⟨ty, hty, hty0, hty1, htysel, dy, hdyn, htye, hmy⟩ :=
    moveNext_spec items ((y.1 : Nat) : Int) hex (by positivity)
      (by exact_mod_cast y.1.isLt)
  have hsx : ((stepSel items x).1 : Int) = tx := by
    unfold stepSel
    simp only [htx]
    rw [dif_pos ⟨htx0, htx1, htxsel⟩]
    simp [Int.toNat_of_nonneg htx0]
  have hsy : ((stepSel items y).1 : Int) = ty := by
    unfold stepSel
    simp only [hty]
    rw [dif_pos ⟨hty0, hty1, htysel⟩]
    simp [Int.toNat_of_nonneg hty0]
  have hteq : tx = ty := by
    rw [← hsx, ← hsy, hxy]
  have heq := moveNext_inj items ((x.1 : Nat) : Int) ((y.1 : Nat) : Int) tx hn
    (by positivity) (by exact_mod_cast x.1.isLt) x.2
    (by positivity) (by exact_mod_cast y.1.isLt) y.2
    dx dy hdxn hdyn htxe (by rw [hteq]; exact htye) hmx hmy
  have hnat : (x.1 : Nat) = (y.1 : Nat) := by exact_mod_cast heq
  exact Subtype.ext (Fin.ext hnat)

/-- Every selectable index is periodic under the totalized step. -/
theorem stepSel_periodic (items : List MenuItem)
    (hex : ∃ j : Nat, j < items.length ∧ selOK items ((j : Nat) : Int) = true)
    (x : SelIdx items) :
    ∃ k : Nat, 0 < k ∧ (stepSel items)^[k] x = x := by
  classical
  have hinj := stepSel_inj items hex
  obtain ⟨i, j, hij, hgij⟩ :=
    Fintype.exists_ne_map_eq_of_card_lt
      (fun k : Fin (Fintype.card (SelIdx items) + 1) => (stepSel items)^[(k : Nat)] x)
      (by simp)
  have key : ∀ (i j : Nat), i < j → (stepSel items)^[i] x = (stepSel items)^[j] x →
      ∃ k : Nat, 0 < k ∧ (stepSel items)^[k] x = x := by
    intro i j hlt he
    refine ⟨j - i, by omega, ?_⟩
    have hadd : (stepSel items)^[j] x = (stepSel items)^[i] ((stepSel items)^[j - i] x) := by
      rw [← Function.iterate_add_apply]
      congr 1
      omega
    rw [hadd] at he
    exact (hinj.iterate i he).symm
  rcases Nat.lt_or_ge (i : Nat) (j : Nat) with h | h
  · exact key _ _ h hgij
  · have h2 : (j : Nat) < (i : Nat) := by
      rcases Nat.lt_or_ge (j : Nat) (i : Nat) with h' | h'
      · exact h'
      · exfalso
        exact hij (Fin.ext (by omega))
    exact key _ _ h2 hgij.symm

/-- Iterating moveNext from a selectable index follows the orbit of the
totalized step. -/
theorem moveNextIter_stepSel (items : List MenuItem)
    (hex : ∃ j : Nat, j < items.length ∧ selOK items ((j : Nat) : Int) = true) :
    ∀ (k : Nat) (x : SelIdx items),
      moveNextIter items k ((x.1 : Nat) : Int)
        = some ((((stepSel items)^[k] x).1 : Nat) : Int) := by
  intro k
  induction k with
  | zero => intro x; simp [moveNextIter]
  | succ k ih =>
    intro x
    have hstep := stepSel_moveNext items hex x
    simp only [moveNextIter, hstep]
    rw [ih (stepSel items x)]
    rw [Function.iterate_succ_apply]

/-- C4 (amended): for every entries sequence containing a selectable
entry and every in-range starting selection that itself points at a
selectable entry, every iterate of the move-next operation succeeds and
lands on a selectable in-range entry, and some positive number of
iterations returns exactly to the starting selection. -/
theorem c4_move_next_cycles (items : List MenuItem) (s : Int)
    (hex : ∃ j : Nat, j < items.length ∧ selOK items ((j : Nat) : Int) = true)
    (hs0 : 0 ≤ s) (hs1 : s < (items.length : Int))
    (hsel : selOK items s = true) :
    (∀ k : Nat, ∃ t : Int, moveNextIter items k s = some t ∧ 0 ≤ t ∧
      t < (items.length : Int) ∧ selOK items t = true) ∧
    (∃ k : Nat, 0 < k ∧ moveNextIter items k s = some s) := by
  have hxlt : s.toNat < items.length := by omega
  have hxsel : selOK items ((s.toNat : Nat) : Int) = true := by
    rw [Int.toNat_of_nonneg hs0]
    exact hsel
  set x : SelIdx items := ⟨⟨s.toNat, hxlt⟩, hxsel⟩ with hxdef
  have hsx : ((x.1 : Nat) : Int) = s := by
    simp [hxdef, Int.toNat_of_nonneg hs0]
  constructor
  · intro k
    refine ⟨((((stepSel items)^[k] x).1 : Nat) : Int), ?_, by positivity, ?_, ?_⟩
    · rw [← hsx]
      exact moveNextIter_stepSel items hex k x
    · exact_mod_cast ((stepSel items)^[k] x).1.isLt
    · exact ((stepSel items)^[k] x).2
  · obtain ⟨k, hk0, hkx⟩ := stepSel_periodic items hex x
    refine ⟨k, hk0, ?_⟩
    rw [← hsx]
    rw [moveNextIter_stepSel items hex k x, hkx]

/-- C4 witness: on a three-item bar with one separator, the orbit of
move-next from selection 0 returns to 0. -/
theorem c4_move_next_cycles_witness :
    ∃ k : Nat, 0 < k ∧ moveNextIter c4wItems k 0 = some 0 :=
  (c4_move_next_cycles c4wItems 0 ⟨0, by decide, by decide⟩ (by decide) (by decide)
    (by decide)).2

/-- C4 counterexample: with a separator at index 0 and a selectable
entry at index 1, iterating move-next from starting selection 0 (a
legal starting selection pointing at the separator) never returns to 0:
the claim fails for starting selections on non-selectable entries. -/
theorem c4_nonselectable_start_never_returns :
    (0 < sepFirstItems.length ∧ selOK sepFirstItems 1 = true) ∧
    ∀ k : Nat, moveNextIter sepFirstItems (k + 1) 0 ≠ some 0 := by
  refine ⟨⟨by decide, by decide⟩, ?_⟩
  have h1 : moveNext sepFirstItems 0 = some 1 := rfl
  have h2 : moveNext sepFirstItems 1 = some 1 := rfl
  have hfix : ∀ k, moveNextIter sepFirstItems k 1 = some 1 := by
    intro k
    induction k with
    | zero => rfl
    | succ k ih =>
      simp only [moveNextIter, h2]
      exact ih
  intro k
  simp only [moveNextIter, h1]
  rw [hfix k]
  simp

/-- Printable width distributes over concatenation through the escape
state. -/
theorem prwAux_append (a b : List Char) :
    ∀ st, prwAux (a ++ b) st = prwAux a st + prwAux b (ansiStateAfter a st) := by
  induction a with
  | nil => intro st; simp [prwAux, ansiStateAfter]
  | cons c rest ih =>
    intro st
    simp only [List.cons_append, prwAux, ansiStateAfter, List.append_eq]
    split_ifs <;> rw [ih] <;> omega

/-- The escape state after a concatenation is reached by threading. -/
theorem ansiStateAfter_append (a b : List Char) :
    ∀ st, ansiStateAfter (a ++ b) st = ansiStateAfter b (ansiStateAfter a st) := by
  induction a with
  | nil => intro st; simp [ansiStateAfter]
  | cons c rest ih =>
    intro st
    simp only [List.cons_append, ansiStateAfter, List.append_eq]
    split_ifs <;> rw [ih]

/-- Every boundary prefix is at most as wide as the whole run. -/
theorem visW_take_le (s : List Char) (j : Nat) : visW (s.take j) ≤ visW s := by
  conv_rhs => rw [← List.take_append_drop j s]
  rw [visW, visW, prwAux_append]
  omega

/-- The split lands exactly at a boundary that first reaches the target
width. -/
theorem splitGo_first (s : List Char) (w : Nat) (i : Nat) (hi : i ≤ s.length)
    (hw : visW (s.take i) = w) (hmin : ∀ j, j < i → visW (s.take j) < w) :
    ∀ gas k prevI, gas = s.length - k → k ≤ i →
      splitGo s w gas k prevI = (s.take i, s.drop i) := by
  intro gas
  induction gas with
  | zero =>
    intro k prevI hgas hk
    have hk2 : k = s.length := by omega
    have hieq : i = s.length := by omega
    simp [splitGo, hieq]
  | succ g ih =>
    intro k prevI hgas hk
    have hklen : k < s.length := by omega
    rcases Nat.eq_or_lt_of_le hk with heq | hlt
    · subst heq
      simp [splitGo, hw]
    · have hvk : visW (s.take k) < w := hmin k hlt
      simp only [splitGo]
      rw [if_neg (by omega), if_neg (by omega)]
      exact ih (k + 1) k (by omega) (by omega)

/-- The analogue of splitGo_first at the public entry point. -/
theorem split_first (s : List Char) (w : Nat) (i : Nat) (hi : i ≤ s.length)
    (hw : visW (s.take i) = w) (hmin : ∀ j, j < i → visW (s.take j) < w) :
    splitWithANSI s w = (s.take i, s.drop i) :=
  splitGo_first s w i hi hw hmin s.length 0 0 (by omega) (by omega)

/-- When the split's first half measures exactly the target, it is a
boundary prefix whose proper prefixes are all narrower. -/
theorem split_exact (s : List Char) (w : Nat)
    (hfst : visW (splitWithANSI s w).1 = w) :
    ∃ i, i ≤ s.length ∧ splitWithANSI s w = (s.take i, s.drop i) ∧
      ∀ j, j < i → visW (s.take j) < w := by
  suffices H : ∀ gas k prevI, gas = s.length - k → k ≤ s.length →
      (∀ j, j < k → visW (s.take j) < w) →
      (prevI < k ∨ (prevI = 0 ∧ k = 0)) →
      visW ((splitGo s w gas k prevI).1) = w →
      ∃ i, i ≤ s.length ∧ splitGo s w gas k prevI = (s.take i, s.drop i) ∧
        ∀ j, j < i → visW (s.take j) < w by
    exact H s.length 0 0 (by omega) (by omega) (by omega) (Or.inr ⟨rfl, rfl⟩) hfst
  intro gas
  induction gas with
  | zero =>
    intro k prevI hgas hk hmink hprev hfst'
    have hk2 : k = s.length := by omega
    refine ⟨s.length, le_rfl, by simp [splitGo], ?_⟩
    intro j hj
    exact hmink j (by omega)
  | succ g ih =>
    intro k prevI hgas hk hmink hprev hfst'
    have hklen : k < s.length := by omega
    by_cases he : visW (s.take k) = w
    · refine ⟨k, by omega, ?_, hmink⟩
      simp [splitGo, he]
    · by_cases hg : visW (s.take k) > w
      · exfalso
        rcases hprev with hlt | ⟨hp0, hk0⟩
        · simp only [splitGo, if_neg he, if_pos hg] at hfst'
          have := hmink prevI hlt
          omega
        · subst hp0
          subst hk0
          have hz : visW (List.take 0 s) = 0 := by simp [visW, prwAux]
          omega
      · have hres : splitGo s w (g + 1) k prevI = splitGo s w g (k + 1) k := by
          simp only [splitGo, if_neg he, if_neg hg]
        rw [hres] at hfst' ⊢
        exact ih (k + 1) k (by omega) (by omega)
          (by intro j hj
              rcases Nat.lt_or_ge j k with h' | h'
              · exact hmink j h'
              · have : j = k := by omega
                subst this
                omega)
          (Or.inl (by omega)) hfst'

/-- Splitting a run at its own total width cuts exactly after the last
width-contributing character. -/
theorem split_total (s : List Char) :
    ∃ i, i ≤ s.length ∧ splitWithANSI s (visW s) = (s.take i, s.drop i) ∧
      visW (s.take i) = visW s ∧ ∀ j, j < i → visW (s.take j) < visW s := by
  suffices H : ∀ gas k prevI, gas = s.length - k → k ≤ s.length →
      (∀ j, j < k → visW (s.take j) < visW s) →
      ∃ i, i ≤ s.length ∧ splitGo s (visW s) gas k prevI = (s.take i, s.drop i) ∧
        visW (s.take i) = visW s ∧ ∀ j, j < i → visW (s.take j) < visW s by
    exact H s.length 0 0 (by omega) (by omega) (by omega)
  intro gas
  induction gas with
  | zero =>
    intro k prevI hgas hk hmink
    have hk2 : k = s.length := by omega
    exact ⟨s.length, le_rfl, by simp [splitGo], by simp, fun j hj => hmink j (by omega)⟩
  | succ g ih =>
    intro k prevI hgas hk hmink
    have hklen : k < s.length := by omega
    by_cases he : visW (s.take k) = visW s
    · refine ⟨k, by omega, ?_, he, hmink⟩
      simp [splitGo, he]
    · have hle := visW_take_le s k
      have hng : ¬ visW (s.take k) > visW s := by omega
      have hres : splitGo s (visW s) (g + 1) k prevI = splitGo s (visW s) g (k + 1) k := by
        simp only [splitGo, if_neg he, if_neg hng]
      rw [hres]
      exact ih (k + 1) k (by omega) (by omega)
        (by intro j hj
            rcases Nat.lt_or_ge j k with h' | h'
            · exact hmink j h'
            · have : j = k := by omega
              subst this
              omega)

/-- An exact boundary prefix leaves the scanner outside any escape
sequence: its last character contributed visible width. -/
theorem ansiStateAfter_exact (s : List Char) (w : Nat) (i : Nat)
    (hi : i ≤ s.length) (hw : visW (s.take i) = w)
    (hmin : ∀ j, j < i → visW (s.take j) < w) :
    ansiStateAfter (s.take i) false = false := by
  cases i with
  | zero => simp [ansiStateAfter]
  | succ i' =>
    have hi' : i' < s.length := by omega
    obtain ⟨c, hc⟩ : ∃ c, s[i']? = some c := ⟨s[i'], by simp [hi']⟩
    have htake : s.take (i' + 1) = s.take i' ++ [c] := by
      rw [List.take_succ, hc]
      rfl
    have hvw : visW (s.take (i' + 1))
        = visW (s.take i') + prwAux [c] (ansiStateAfter (s.take i') false) := by
      rw [htake, visW, prwAux_append]
      rfl
    have hlt := hmin i' (by omega)
    have hpos : 0 < prwAux [c] (ansiStateAfter (s.take i') false) := by omega
    set st' := ansiStateAfter (s.take i') false with hst'
    have hcne : c ≠ '\x1b' ∧ st' = false := by
      by_cases h1 : c = '\x1b'
      · exfalso
        simp [prwAux, h1] at hpos
      · by_cases h2 : st'
        · exfalso
          by_cases h3 : isAnsiTerm c <;> simp [prwAux, h1, h2, h3] at hpos
        · exact ⟨h1, by simpa using h2⟩
    rw [htake, ansiStateAfter_append, ← hst', hcne.2]
    simp [ansiStateAfter, hcne.1]

/-- C8 (amended): provided the background row splits exactly at column
x (no wide code point straddles that cut and the row is at least x
wide), re-splitting the composited row at x returns exactly the
original background prefix, and re-splitting it at x + width(fg)
returns as suffix the re-emitted style codes scanned from the
background's first x + width(fg) columns followed by the surviving
background suffix, preceded only by the zero-width tail of the
foreground row. -/
theorem c8_overlay_resplit (bg fg : List Char) (x : Nat)
    (hx : visW (splitWithANSI bg x).1 = x) :
    (splitWithANSI (overlayRow bg fg x) x).1 = (splitWithANSI bg x).1 ∧
    (splitWithANSI (overlayRow bg fg x) (x + visW fg)).2
      = (splitWithANSI fg (visW fg)).2
        ++ (findAnsi (splitWithANSI bg (x + visW fg)).1).flatten
        ++ (splitWithANSI bg (x + visW fg)).2 := by
  obtain ⟨i, hi, heq, hmin⟩ := split_exact bg x hx
  have hpfst : (splitWithANSI bg x).1 = bg.take i := by rw [heq]
  have hpw : visW (bg.take i) = x := by rw [← hpfst]; exact hx
  have hbgw : ¬ visW bg < x := by
    have h1 : visW (bg.take i) ≤ visW bg := visW_take_le bg i
    omega
  obtain ⟨jf, hjf, heqf, hwf, hminf⟩ := split_total fg
  set codes : List Char := (findAnsi (splitWithANSI bg (x + visW fg)).1).flatten
    with hcodes
  set sfx : List Char := (splitWithANSI bg (x + visW fg)).2 with hsfx
  have hrow : overlayRow bg fg x = bg.take i ++ (fg ++ (codes ++ sfx)) := by
    simp only [overlayRow]
    rw [if_neg hbgw, hpfst, hpw, if_neg (lt_irrefl x)]
    simp [List.append_assoc]
  have hlen_take : (bg.take i).length = i := by
    rw [List.length_take]
    omega
  have hrtake_small : ∀ j, j ≤ i →
      (bg.take i ++ (fg ++ (codes ++ sfx))).take j = bg.take j := by
    intro j hj
    rw [List.take_append_of_le_length (by omega)]
    rw [List.take_take, Nat.min_eq_left hj]
  have hrtake_mid : ∀ e, e ≤ fg.length →
      (bg.take i ++ (fg ++ (codes ++ sfx))).take (i + e)
        = bg.take i ++ fg.take e := by
    intro e he
    have h1 := @List.take_append Char (bg.take i) (fg ++ (codes ++ sfx)) e
    rw [hlen_take] at h1
    rw [h1]
    congr 1
    exact List.take_append_of_le_length he
  have hclean : ansiStateAfter (bg.take i) false = false :=
    ansiStateAfter_exact bg x i hi hpw hmin
  have hw_mid : ∀ e, visW (bg.take i ++ fg.take e) = x + visW (fg.take e) := by
    intro e
    show prwAux (bg.take i ++ fg.take e) false = _
    rw [prwAux_append, hclean]
    rw [show prwAux (bg.take i) false = x from hpw]
    rfl
  have hfg0 : visW (fg.take 0) = 0 := by simp [visW, prwAux]
  constructor
  · have h1 : splitWithANSI (overlayRow bg fg x) x
        = ((overlayRow bg fg x).take i, (overlayRow bg fg x).drop i) := by
      apply split_first
      · rw [hrow]
        simp only [List.length_append]
        omega
      · rw [hrow, hrtake_small i le_rfl]
        exact hpw
      · intro j hj
        rw [hrow, hrtake_small j (by omega)]
        exact hmin j hj
    rw [h1, hpfst]
    rw [hrow, hrtake_small i le_rfl]
  · have hwpos : 0 < jf → 0 < visW fg := by
      intro h
      have := hminf 0 h
      omega
    have h2 : splitWithANSI (overlayRow bg fg x) (x + visW fg)
        = ((overlayRow bg fg x).take (i + jf), (overlayRow bg fg x).drop (i + jf)) := by
      apply split_first
      · rw [hrow]
        simp only [List.length_append]
        omega
      · rw [hrow, hrtake_mid jf hjf, hw_mid, hwf]
      · intro j hj
        rcases Nat.lt_or_ge j i with hji | hji
        · rw [hrow, hrtake_small j (by omega)]
          have := hmin j hji
          omega
        · rcases Nat.eq_or_lt_of_le hji with hji2 | hji2
          · subst hji2
            rw [hrow, hrtake_small i le_rfl, hpw]
            have hj0 : 0 < jf := by omega
            have := hwpos hj0
            omega
          · obtain ⟨e, rfl⟩ : ∃ e, j = i + e := ⟨j - i, by omega⟩
            have hejf : e < jf := by omega
            rw [hrow, hrtake_mid e (by omega), hw_mid]
            have := hminf e hejf
            omega
    rw [h2]
    have hdrop : (overlayRow bg fg x).drop (i + jf)
        = fg.drop jf ++ (codes ++ sfx) := by
      rw [hrow]
      have h3 := @List.drop_append Char (bg.take i) (fg ++ (codes ++ sfx)) jf
      rw [hlen_take] at h3
      rw [h3]
      exact List.drop_append_of_le_length hjf
    rw [hdrop]
    have hsnd : (splitWithANSI fg (visW fg)).2 = fg.drop jf := by rw [heqf]
    rw [hsnd]
    simp [List.append_assoc]

/-- Witness for c8_overlay_resplit: a background row containing a color
escape sequence, foreground of width 2, cut column 2. -/
theorem c8_overlay_resplit_witness :
    visW (splitWithANSI c8bg 2).1 = 2 ∧
    ((splitWithANSI (overlayRow c8bg c8fg 2) 2).1 = (splitWithANSI c8bg 2).1 ∧
     (splitWithANSI (overlayRow c8bg c8fg 2) (2 + visW c8fg)).2
       = (splitWithANSI c8fg (visW c8fg)).2
         ++ (findAnsi (splitWithANSI c8bg (2 + visW c8fg)).1).flatten
         ++ (splitWithANSI c8bg (2 + visW c8fg)).2) :=
  ⟨by decide, c8_overlay_resplit c8bg c8fg 2 (by decide)⟩

/-- C8 counterexample: with background "a" followed by a wide CJK
character and cut column 2, the background does not split exactly at
column 2 (the splitter hands back the whole row, width 3), and
re-splitting the composited row at column 2 returns only "a" instead of
the original background prefix, refuting the unconditional claim. -/
theorem c8_wide_cut_leaks :
    (splitWithANSI (overlayRow ['a', '漢'] ['Z'] 2) 2).1
      ≠ (splitWithANSI ['a', '漢'] 2).1 := by decide
